import Mathlib

/-!
# Wiremap: a shallow embedding of the dependency-injection runtime

This file embeds the authoritative implementation of the wiremap repository
(`src/unit.ts`, `src/block.ts`, `src/wiremap.ts`, `src/plug.ts`,
`src/circuit.ts`, first/authoritative version of each module) and proves the
specification claims about it.

Modelling conventions:
* JavaScript values relevant to the engine are deep-embedded as `JVal`.
  Function bodies are opaque: a function is represented by an identifier
  `fid` together with its marker properties.  Invoking a unit function is
  recorded symbolically (`RVal.factRes fid wid` is "the value returned by
  calling function `fid` with the wire `wid` as its argument") and logged in
  the session call log, so "the factory is invoked exactly once" is provable.
* JavaScript objects are association lists in insertion order; `Object.keys`
  returns only the string keys, in order, as in JS.  Symbol-keyed properties
  (`unitSymbol`, `blockSymbol`) are represented by the `JKey.sym` keys.
* The mutable per-session cache (`Wcache`) and the lazily populated proxy
  targets are threaded explicitly through every operation as a `Wstate`.
  Object identity of wires and proxies is modelled by the allocation counter
  (`nextId`): two proxies are "the identity-same object" iff they have the
  same id.
* Thrown JS errors are `Except` errors; the untyped `TypeError` raised by
  `Object.keys(undefined)` is distinguished from the engine's own `Error`s.
-/

namespace Wiremap

/-- Object/Map keys: JS string keys and the two well-known symbols
(`unitSymbol` is `.sym "unit"`, `blockSymbol` is `.sym "block"`). -/
inductive JKey where
  | str (s : String)
  | sym (s : String)
deriving DecidableEq, Repr

/-- Deep embedding of the JS values the engine inspects.  `fn fid props`
is a function object with opaque body `fid` carrying (string-keyed) marker
properties; `obj` is an ordinary object with fields in insertion order. -/
inductive JVal where
  | undefv
  | nullv
  | boolv (b : Bool)
  | num (n : Int)
  | strv (s : String)
  | symv (s : String)
  | fn (fid : Nat) (props : List (String × JVal))
  | obj (fields : List (JKey × JVal))
deriving Repr

/-- Association-list lookup (first binding wins, as JS objects/Maps have
unique keys). -/
def alookup {κ α : Type} [DecidableEq κ] : List (κ × α) → κ → Option α
  | [], _ => none
  | (k', v) :: rest, k => if k' = k then some v else alookup rest k

/-- `m[k] = v` / `Map.set`: update in place if the key exists (keeping its
position, as JS does), otherwise append. -/
def aset {κ α : Type} [DecidableEq κ] : List (κ × α) → κ → α → List (κ × α)
  | [], k, v => [(k, v)]
  | (k', v') :: rest, k, v =>
    if k' = k then (k, v) :: rest else (k', v') :: aset rest k v

/-- `Object.assign(m, d)`: fold `d`'s entries into `m` in order. -/
def oassign {κ α : Type} [DecidableEq κ]
    (m : List (κ × α)) (d : List (κ × α)) : List (κ × α) :=
  d.foldl (fun acc kv => aset acc kv.1 kv.2) m

/-- `Object.keys`: the string keys, in insertion order. -/
def strKeys : List (JKey × JVal) → List String
  | [] => []
  | (.str s, _) :: rest => s :: strKeys rest
  | (.sym _, _) :: rest => strKeys rest

/-- Fields of an object value (`[]` for non-objects). -/
def fieldsOf : JVal → List (JKey × JVal)
  | .obj fields => fields
  | _ => []

/-- JS truthiness, for `!!unit.opts.isPrivate` (a missing property is
`undefined`, hence falsy). -/
def truthy : Option JVal → Bool
  | none => false
  | some .undefv => false
  | some .nullv => false
  | some (.boolv b) => b
  | some (.num n) => decide (n ≠ 0)
  | some (.strv s) => decide (s ≠ "")
  | some (.symv _) => true
  | some (.fn _ _) => true
  | some (.obj _) => true

/-- The JS strict comparison `x === true` on a property lookup. -/
def isTrueV : Option JVal → Bool
  | some (.boolv true) => true
  | _ => false

/-! ## `src/unit.ts` (authoritative version): kind and visibility predicates -/

/-- `isFunction` (unit.ts): `typeof unit === "function"`. -/
def isFunction : JVal → Bool
  | .fn _ _ => true
  | _ => false

/-- `isUnitDef` (unit.ts): a non-null object with the `unitSymbol` key. -/
def isUnitDef : JVal → Bool
  | .obj fields => (alookup fields (.sym "unit")).isSome
  | _ => false

/-- `def[unitSymbol]`: the wrapped value of a unit definition
(`undefined` when absent; only queried after `isUnitDef`). -/
def innerVal (v : JVal) : JVal :=
  (alookup (fieldsOf v) (.sym "unit")).getD .undefv

/-- `def.opts` of a unit-definition wrapper (`undefined` when absent). -/
def defOpts (v : JVal) : JVal :=
  (alookup (fieldsOf v) (.str "opts")).getD .undefv

/-- The opaque body id of a function value (only queried after
`isFunction`-style guards). -/
def fidOf : JVal → Nat
  | .fn fid _ => fid
  | _ => 0

/-- `isPrivate` (unit.ts): a function with `isPrivate === true`, or a unit
definition whose `opts.isPrivate` is truthy. -/
def isPrivate : JVal → Bool
  | .nullv => false
  | .fn _ props => isTrueV (alookup props "isPrivate")
  | .obj fields =>
    if (alookup fields (.sym "unit")).isSome then
      truthy (alookup (fieldsOf ((alookup fields (.str "opts")).getD .undefv)) (.str "isPrivate"))
    else false
  | _ => false

/-- `isBoundFunc` (unit.ts): a function with `isBound === true`. -/
def isBoundFunc : JVal → Bool
  | .fn _ props => isTrueV (alookup props "isBound")
  | _ => false

/-- `isFactoryFunc` (unit.ts): a function with `isFactory === true`. -/
def isFactoryFunc : JVal → Bool
  | .fn _ props => isTrueV (alookup props "isFactory")
  | _ => false

/-- `isAsyncFactoryFunc` (unit.ts): a function with `isFactory === true`
and `isAsync === true`. -/
def isAsyncFactoryFunc : JVal → Bool
  | .fn _ props =>
    isTrueV (alookup props "isFactory")
      && isTrueV (alookup props "isAsync")
  | _ => false

/-- `isBoundDef` (unit.ts): a unit definition wrapping a function, whose
`opts.isBound` is the boolean `true`. -/
def isBoundDef (v : JVal) : Bool :=
  isUnitDef v && isFunction (innerVal v)
    && isTrueV (alookup (fieldsOf (defOpts v)) (.str "isBound"))

/-- `isFactoryDef` (unit.ts): a unit definition wrapping a function, whose
`opts.isFactory === true`. -/
def isFactoryDef (v : JVal) : Bool :=
  isUnitDef v && isFunction (innerVal v)
    && isTrueV (alookup (fieldsOf (defOpts v)) (.str "isFactory"))

/-- `isAsyncFactoryDef` (unit.ts): a unit definition wrapping a function,
with `opts.isFactory === true` and `opts.isAsync === true`. -/
def isAsyncFactoryDef (v : JVal) : Bool :=
  isUnitDef v && isFunction (innerVal v)
    && isTrueV (alookup (fieldsOf (defOpts v)) (.str "isFactory"))
    && isTrueV (alookup (fieldsOf (defOpts v)) (.str "isAsync"))

/-- Errors thrown by the engine (plus the untyped JS `TypeError` that
`Object.keys(undefined)` raises inside `createBlockProxy`, and a model-only
`heapMiss` for dereferencing an unallocated proxy id, which cannot occur in
a real session). -/
inductive Jerr where
  | wrongUnitDef
  | typeErr (blockPath : String)
  | noUnit (blockPath : String) (prop : String)
  | unitNotFound (key : String) (fromPath : String)
  | noParent
  | heapMiss
deriving DecidableEq, Repr

/-- `defineUnit` (unit.ts): wraps a value with its options; a truthy
`isBound`/`isFactory`/`isAsync` option over a non-function throws
`"Wrong unit definition value"`. -/
def defineUnit (v : JVal) (opts : JVal) : Except Jerr JVal :=
  if (truthy (alookup (fieldsOf opts) (.str "isBound"))
      || truthy (alookup (fieldsOf opts) (.str "isFactory"))
      || truthy (alookup (fieldsOf opts) (.str "isAsync")))
      && !isFunction v then
    .error .wrongUnitDef
  else
    .ok (.obj [(.sym "unit", v), (.str "opts", opts)])

/-! ## `src/block.ts` (authoritative version): block structure -/

/-- `tagBlock()`: the `$` marker object `{ [blockSymbol]: true }`. -/
def blockTag : JVal := .obj [(.sym "block", .boolv true)]

/-- `itemIsBlock` (block.ts): a non-null object whose `$` property is a
non-null object with `[blockSymbol] === true`. -/
def itemIsBlock : JVal → Bool
  | .obj fields =>
    match alookup fields (.str "$") with
    | some (.obj tagFields) => isTrueV (alookup tagFields (.sym "block"))
    | _ => false
  | _ => false

/-- `getBlockUnitKeys` (block.ts): the keys of a block's own entries that
are units — excluding the `$` tag, nested blocks and the bare `unitSymbol` —
and excluding private units unless `lcl` (the `local` flag) is set. -/
def getBlockUnitKeys (blockDef : JVal) (lcl : Bool) : List String :=
  (strKeys (fieldsOf blockDef)).filter fun key =>
    if key = "$" then false
    else
      let unit := (alookup (fieldsOf blockDef) (.str key)).getD .undefv
      if itemIsBlock unit || isUnitSymbolVal unit then false
      else if lcl then true else !isPrivate unit
where
  /-- `unit === unitSymbol`. -/
  isUnitSymbolVal : JVal → Bool
    | .symv "unit" => true
    | _ => false

/-- JS `s.startsWith(p)` (char-list implementation, equivalent to
`String.startsWith` but kernel-reducible). -/
def jsStartsWith (s p : String) : Bool := p.data.isPrefixOf s.data

/-- JS `s.split(".")` (char-list implementation of `String.splitOn "."`,
kernel-reducible): splits into the (possibly empty) dot-separated
segments; `""` yields `[""]`. -/
def jsSplitDot (s : String) : List String := go s.data [] where
  go : List Char → List Char → List String
    | [], acc => [String.mk acc.reverse]
    | c :: rest, acc =>
      if c = '.' then String.mk acc.reverse :: go rest []
      else go rest (c :: acc)

/-- `extractParentPath` (block.ts): drop the last dot segment; `none` (JS
`null`) when the path has no dot. -/
def extractParentPath (localPath : String) : Option String :=
  let parts := jsSplitDot localPath
  if parts.length > 1 then some (String.intercalate "." parts.dropLast)
  else none

/-! ## `src/wiremap.ts` (authoritative version): flattening -/

/-- `hasUnits` (wiremap.ts): some entry besides the `$` tag is not a
block. -/
def hasUnits (item : JVal) : Bool :=
  (strKeys (fieldsOf item)).any fun key =>
    if key = "$" then false
    else !itemIsBlock ((alookup (fieldsOf item) (.str key)).getD .undefv)

/-- `hasBlocks` (wiremap.ts): some entry is a tagged block. -/
def hasBlocks (item : JVal) : Bool :=
  (strKeys (fieldsOf item)).any fun key =>
    itemIsBlock ((alookup (fieldsOf item) (.str key)).getD .undefv)

mutual

/-- `mapBlocks` (wiremap.ts): depth-first flattening of the nested block
tree into a `dot-joined path → block definition` map.  Only tagged blocks
are visited; a block is recorded iff it owns at least one direct unit;
sub-blocks are recursed into iff present, and their map is merged with
`Object.assign`. -/
def mapBlocks (blocks : JVal) (pre : String) : List (String × JVal) :=
  match blocks with
  | .obj fields => mapBlocksGo fields pre []
  | _ => []

/-- The `Object.keys(blocks).forEach` loop of `mapBlocks`, threading the
`mapped` accumulator through `mapped[finalKey] = block` and
`Object.assign(mapped, subBlocks)` in source order. -/
def mapBlocksGo : List (JKey × JVal) → String → List (String × JVal) →
    List (String × JVal)
  | [], _, mapped => mapped
  | (.sym _, _) :: rest, pre, mapped => mapBlocksGo rest pre mapped
  | (.str key, block) :: rest, pre, mapped =>
    if itemIsBlock block then
      let finalKey := if pre = "" then key else pre ++ "." ++ key
      let m1 := if hasUnits block then aset mapped finalKey block else mapped
      let m2 := if hasBlocks block then oassign m1 (mapBlocks block finalKey)
                else m1
      mapBlocksGo rest pre m2
    else mapBlocksGo rest pre mapped

end

/-! ## Resolution engine state (`Wcache` of `src/common.ts` plus the JS
heap of proxy objects and the symbolic invocation log) -/

/-- A resolved unit value.  `raw` is the definition value itself (plain
units); `boundFn fid wid` is `f.bind(wire)`; `factRes fid wid` is the
opaque value returned by invoking factory `fid` with wire `wid` (awaited,
for async factories). -/
inductive RVal where
  | raw (v : JVal)
  | boundFn (fid : Nat) (wid : Nat)
  | factRes (fid : Nat) (wid : Nat)
deriving Repr

/-- A JS `Proxy` created by `createBlockProxy`: its captured block path and
`local` flag, the eagerly computed `unitKeys`, and the lazily populated
target object (`cachedblock`). -/
structure ProxyObj where
  blockPath : String
  isLocal : Bool
  unitKeys : List String
  tgt : List (String × RVal)
deriving Repr

/-- The per-session state: the flattened hub (immutable after `wireUp`),
the four `Wcache` maps (wires and proxies stored as allocation ids), the
heap of proxy objects, the allocation counter, and the log of unit-function
invocations `(fid, wid)` (most recent first). -/
structure Wstate where
  hub : List (String × JVal)
  unitC : List (String × RVal)
  wireC : List (String × Nat)
  proxyC : List (String × Nat)
  localC : List (String × Nat)
  heap : List (Nat × ProxyObj)
  nextId : Nat
  calls : List (Nat × Nat)
deriving Repr

/-- `createBlockProxy` (block.ts): reads the block definition from the hub
and eagerly computes `getBlockUnitKeys`.  When the path is not a hub key,
`blockDefs[blockPath]` is `undefined` and `Object.keys(undefined)` inside
`getBlockUnitKeys` throws a `TypeError`. -/
def createBlockProxy (st : Wstate) (blockPath : String) (lcl : Bool) :
    Except Jerr (Nat × Wstate) :=
  match alookup st.hub blockPath with
  | none => .error (.typeErr blockPath)
  | some blockDef =>
    let unitKeys := getBlockUnitKeys blockDef lcl
    let pid := st.nextId
    .ok (pid, { st with
      heap := aset st.heap pid ⟨blockPath, lcl, unitKeys, []⟩,
      nextId := pid + 1 })

/-- `getWire` (block.ts): memoized construction of the wire function bound
to `localPath`.  The wire's behaviour is a function of `localPath` and the
shared cache, so the model only allocates its identity. -/
def getWire (st : Wstate) (localPath : String) : Nat × Wstate :=
  match alookup st.wireC localPath with
  | some wid => (wid, st)
  | none =>
    let wid := st.nextId
    (wid, { st with wireC := aset st.wireC localPath wid, nextId := wid + 1 })

/-- Calling the wire bound to `localPath` with `key` — the body of
`getBlockProxy` inside `getWire` (block.ts), in source branch order:
proxy-cache hit, `"."` (local), `".."` (parent), `.child`, `""` (root),
absolute hub path, error. -/
def wireCall (st : Wstate) (localPath : String) (key : String) :
    Except Jerr (Nat × Wstate) :=
  match alookup st.proxyC key with
  | some pid => .ok (pid, st)
  | none =>
    if key = "." then
      match alookup st.localC localPath with
      | some pid => .ok (pid, st)
      | none => do
        let (pid, st1) ← createBlockProxy st localPath true
        .ok (pid, { st1 with localC := aset st1.localC localPath pid })
    else if key = ".." then
      -- `cache.localProxy.has(parentPath)` is checked before the null
      -- test; `has(null)` is always false, so the branches coincide.
      match extractParentPath localPath with
      | none => .error .noParent
      | some parentPath =>
        match alookup st.localC parentPath with
        | some pid => .ok (pid, st)
        | none => do
          let (pid, st1) ← createBlockProxy st parentPath false
          .ok (pid, { st1 with localC := aset st1.localC parentPath pid })
    else if jsStartsWith key "." then do
      let blockPath := localPath ++ key
      let (pid, st1) ← createBlockProxy st blockPath false
      .ok (pid, { st1 with proxyC := aset st1.proxyC blockPath pid })
    else if key = "" then do
      let (pid, st1) ← createBlockProxy st "" false
      .ok (pid, { st1 with proxyC := aset st1.proxyC key pid })
    else if (st.hub.map Prod.fst).contains key then do
      let (pid, st1) ← createBlockProxy st key false
      .ok (pid, { st1 with proxyC := aset st1.proxyC key pid })
    else
      .error (.unitNotFound key localPath)

/-- The `finalKey` computation (block.ts / wiremap.ts): the fully
qualified dotted key of unit `prop` of the block at `blockPath`. -/
def fqKey (blockPath prop : String) : String :=
  if blockPath = "" then prop else blockPath ++ "." ++ prop

/-- The kind dispatch of the proxy `get` handler (block.ts lines 190-200),
given the raw definition `d` and the owning block's wire `wid`; returns the
resolved value and the invocations it performs. -/
def resolveDef (d : JVal) (wid : Nat) : RVal × List (Nat × Nat) :=
  if isFactoryFunc d then (.factRes (fidOf d) wid, [(fidOf d, wid)])
  else if isBoundFunc d then (.boundFn (fidOf d) wid, [])
  else if isUnitDef d then
    if isFactoryDef d then (.factRes (fidOf (innerVal d)) wid, [(fidOf (innerVal d), wid)])
    else if isBoundDef d then (.boundFn (fidOf (innerVal d)) wid, [])
    else (.raw (innerVal d), [])
  else (.raw d, [])

/-- Property read through a block proxy — the `get` trap of
`createBlockProxy` (block.ts): proxy-target hit, visible-key check, session
unit-cache hit, else resolve the raw definition with the block's memoized
wire and cache the result in both the proxy target and the unit cache;
unknown keys throw `Block '<path>' has no unit named '<prop>'`. -/
def proxyGet (st : Wstate) (pid : Nat) (prop : String) :
    Except Jerr (RVal × Wstate) :=
  match alookup st.heap pid with
  | none => .error .heapMiss
  | some p =>
    match alookup p.tgt prop with
    | some v => .ok (v, st)
    | none =>
      if p.unitKeys.contains prop then
        let finalKey := fqKey p.blockPath prop
        match alookup st.unitC finalKey with
        | some unit =>
          let p' := { p with tgt := aset p.tgt prop unit }
          .ok (unit, { st with heap := aset st.heap pid p' })
        | none =>
          match alookup st.hub p.blockPath with
          | none => .error .heapMiss
          | some blockDef =>
            match alookup (fieldsOf blockDef) (.str prop) with
            | none => .error .heapMiss
            | some d =>
              let (wid, st1) := getWire st p.blockPath
              let (unit, inv) := resolveDef d wid
              let p' := { p with tgt := aset p.tgt prop unit }
              .ok (unit, { st1 with
                heap := aset st1.heap pid p',
                unitC := aset st1.unitC finalKey unit,
                calls := inv ++ st1.calls })
      else
        .error (.noUnit p.blockPath prop)

/-- `ownKeys` / enumeration of a block proxy: exactly its `unitKeys`. -/
def proxyOwnKeys (st : Wstate) (pid : Nat) : List String :=
  ((alookup st.heap pid).map ProxyObj.unitKeys).getD []

/-! ## `src/wiremap.ts` (authoritative version): bootstrap -/

/-- `hasAsyncKeys` (wiremap.ts): some block of the flat map has an entry
that is an async-factory function or async-factory unit definition. -/
def hasAsyncKeys (blockDefs : List (String × JVal)) : Bool :=
  (blockDefs.map Prod.fst).any fun blockKey =>
    let block := (alookup blockDefs blockKey).getD .undefv
    (strKeys (fieldsOf block)).any fun key =>
      let item := (alookup (fieldsOf block) (.str key)).getD .undefv
      isAsyncFactoryFunc item || isAsyncFactoryDef item

/-- Process one block's keys inside `resolveAsyncFactories` (wiremap.ts):
for each async-factory entry, fetch/create the owning block's wire, invoke
and await the factory, and store the resolved value in the unit cache under
its fully-qualified key. -/
def resolveAsyncBlock (blockKey : String) (block : JVal) :
    List String → Wstate → Wstate
  | [], st => st
  | key :: rest, st =>
    let item := (alookup (fieldsOf block) (.str key)).getD .undefv
    if isFunction item && isAsyncFactoryFunc item then
      let (wid, st1) := getWire st blockKey
      let resolved : RVal := .factRes (fidOf item) wid
      let finalKey := fqKey blockKey key
      resolveAsyncBlock blockKey block rest
        { st1 with unitC := aset st1.unitC finalKey resolved,
                   calls := (fidOf item, wid) :: st1.calls }
    else if isAsyncFactoryDef item then
      let (wid, st1) := getWire st blockKey
      let resolved : RVal := .factRes (fidOf (innerVal item)) wid
      let finalKey := fqKey blockKey key
      resolveAsyncBlock blockKey block rest
        { st1 with unitC := aset st1.unitC finalKey resolved,
                   calls := (fidOf (innerVal item), wid) :: st1.calls }
    else resolveAsyncBlock blockKey block rest st

/-- `resolveAsyncFactories` (wiremap.ts): sequentially awaits every
async-factory unit of every block of the flat map, in key order. -/
def resolveAsyncFactories (st : Wstate) : Wstate :=
  (st.hub.map Prod.fst).foldl
    (fun acc blockKey =>
      let block := (alookup st.hub blockKey).getD .undefv
      resolveAsyncBlock blockKey block (strKeys (fieldsOf block)) acc)
    st

/-- `wireUp` step 1 (wiremap.ts): `Object.assign(defs, { $: tagBlock() })`
when the root tree is untagged (appending the `$` key). -/
def ensureTagged (defs : JVal) : JVal :=
  match defs with
  | .obj fields =>
    if (alookup fields (.str "$")).isSome then .obj fields
    else .obj (fields ++ [(.str "$", blockTag)])
  | v => v

/-- The flat hub built by `wireUp` (wiremap.ts lines 144-145):
`mapBlocks(finalDefinitions)` followed by
`blockDefinitions[""] = finalDefinitions`. -/
def buildHub (defs : JVal) : List (String × JVal) :=
  let finalDefinitions := ensureTagged defs
  aset (mapBlocks finalDefinitions "") "" finalDefinitions

/-- Result of `wireUp`: the root wire id and final state, tagged by whether
a Promise was returned (`prom`) or the wire was returned synchronously. -/
inductive WireUpRes where
  | sync (wid : Nat) (st : Wstate)
  | prom (wid : Nat) (st : Wstate)
deriving Repr

/-- The fresh session cache (`createCacheObject`) over a hub. -/
def initState (hub : List (String × JVal)) : Wstate :=
  ⟨hub, [], [], [], [], [], 0, []⟩

/-- `wireUp` (wiremap.ts): flatten, record the root under `""`, then —
iff any async factory exists — pre-resolve all async factories and return
a promise of the root wire; otherwise return the root wire synchronously. -/
def wireUp (defs : JVal) : WireUpRes :=
  let blockDefinitions := buildHub defs
  let cache := initState blockDefinitions
  if hasAsyncKeys blockDefinitions then
    let st1 := resolveAsyncFactories cache
    let (w, st2) := getWire st1 ""
    .prom w st2
  else
    let (w, st2) := getWire cache ""
    .sync w st2

/-! ## `src/plug.ts` and `src/circuit.ts` (authoritative versions) -/

/-- `isHashmap` (block.ts): a non-null object (every `Object.keys` key is
a string by construction). -/
def isHashmap : JVal → Bool
  | .obj _ => true
  | _ => false

/-- `plug` (plug.ts): constructs the plugin record.  Note: no runtime
validation of the adapter happens — the function unconditionally stores the
circuit and adapter. -/
def plug (circuit : JVal) (adapter : JVal) : JVal :=
  .obj [(.str "__isPlugin", .boolv true),
        (.str "__circuit", circuit),
        (.str "__adapter", adapter),
        (.str "__inputs", .obj [])]

/-- `isPlugin` (plug.ts): requires the `__isPlugin`, `__circuit` *and*
`__connector` properties, with `__isPlugin === true` and both `__circuit`
and `__connector` non-null objects. -/
def isPlugin : JVal → Bool
  | .obj fields =>
    (alookup fields (.str "__isPlugin")).isSome
      && (alookup fields (.str "__circuit")).isSome
      && (alookup fields (.str "__connector")).isSome
      && isTrueV (alookup fields (.str "__isPlugin"))
      && isObjectNonNull ((alookup fields (.str "__circuit")).getD .undefv)
      && isObjectNonNull ((alookup fields (.str "__connector")).getD .undefv)
  | _ => false
where
  /-- `typeof x === "object" && x !== null`. -/
  isObjectNonNull : JVal → Bool
    | .obj _ => true
    | _ => false

/-- `item.__adapter` of a plugin record. -/
def adapterOf (item : JVal) : JVal :=
  (alookup (fieldsOf item) (.str "__adapter")).getD .undefv

/-- The entries of `item.__circuit.__pluginAdapters` (a `Map` modelled as
an ordered list of string-keyed entries; empty when absent). -/
def pluginAdaptersOf (item : JVal) : List (String × JVal) :=
  strEntries (fieldsOf
    ((alookup (fieldsOf ((alookup (fieldsOf item) (.str "__circuit")).getD .undefv))
      (.str "__pluginAdapters")).getD .undefv))
where
  strEntries : List (JKey × JVal) → List (String × JVal)
    | [] => []
    | (.str s, v) :: rest => (s, v) :: strEntries rest
    | (.sym _, _) :: rest => strEntries rest

mutual

/-- `extractPluginAdapters` (circuit.ts): scans a block tree for embedded
plugins (per `isPlugin`), recording their adapters (and their inner
circuits' already-collected plugin adapters) under dot-prefixed paths, and
recursing into `$`-prefixed entries and tagged blocks. -/
def extractPluginAdapters (block : JVal) (adapters : List (String × JVal))
    (parentKey : String) : List (String × JVal) :=
  match block with
  | .obj fields => extractGo fields adapters parentKey
  | _ => adapters

/-- The `Object.keys(block).forEach` loop of `extractPluginAdapters`. -/
def extractGo : List (JKey × JVal) → List (String × JVal) → String →
    List (String × JVal)
  | [], acc, _ => acc
  | (.sym _, _) :: rest, acc, pk => extractGo rest acc pk
  | (.str key, item) :: rest, acc, pk =>
    if key = "$" then extractGo rest acc pk
    else if !isHashmap item then extractGo rest acc pk
    else
      let isPfx := jsStartsWith key "$"
      let finalKey := if isPfx then key.drop 1 else key
      if isPlugin item then
        let base := if pk = "" then finalKey else pk ++ "." ++ finalKey
        let acc1 := aset acc base (adapterOf item)
        let acc2 := (pluginAdaptersOf item).foldl
          (fun a kv => aset a (base ++ "." ++ kv.1) kv.2) acc1
        extractGo rest acc2 pk
      else if isPfx || itemIsBlock item then
        extractGo rest (extractPluginAdapters item acc finalKey) pk
      else extractGo rest acc pk

end

/-! ## Concrete definition trees used by witnesses and counterexamples -/

/-- A private plain unit: a function carrying `isPrivate = true`. -/
def privFn : JVal := .fn 1 [("isPrivate", .boolv true)]

/-- A small tree: root owns `valor`; block `a` owns a public unit `pub`
and a private unit `priv` and a sub-block `b` owning `u`. -/
def demoDefs : JVal := .obj [
  (.str "valor", .strv "rootvalue"),
  (.str "a", .obj [
    (.str "$", blockTag),
    (.str "pub", .strv "x"),
    (.str "priv", privFn),
    (.str "b", .obj [(.str "$", blockTag), (.str "u", .strv "bu")])])]

/-- The session state right after `wireUp(demoDefs)` (synchronous: the
tree has no async factories). -/
def demoSt : Wstate :=
  match wireUp demoDefs with
  | .sync _ st => st
  | .prom _ st => st

/-- A circuit (shaped as `defineCircuit` builds them) declaring the two
required external inputs `x` and `y`. -/
def c7Circuit : JVal := .obj [
  (.str "__isCircuit", .boolv true),
  (.str "__hub", .obj []),
  (.str "__inputs", .obj [
    (.str "x", .obj [(.str "vx", .strv "1")]),
    (.str "y", .obj [(.str "vy", .strv "2")])]),
  (.str "__pluginAdapters", .obj [])]

/-- An adapter covering only `x` — the required input `y` is missing. -/
def c7Adapter : JVal := .obj [(.str "x", .strv "foo")]

/-- Session 1 for the visibility bug: create the wire of block `a.b`. -/
def c1StA : Wstate := (getWire demoSt "a.b").2

/-- Session 1 continued: the state after `wireAB("..")` resolved the
parent `a` as a *public* proxy and cached it in the `localProxy` map. -/
def c1StB : Wstate :=
  match wireCall c1StA "a.b" ".." with
  | .ok (_, st) => st
  | .error _ => c1StA

/-- Session 2 (converse order): the state after `wireA(".")` cached the
*local* proxy of `a` (which includes the private unit). -/
def c1StL : Wstate :=
  match wireCall demoSt "a" "." with
  | .ok (_, st) => st
  | .error _ => demoSt

/-- Session 2 continued: create the wire of block `a.b`. -/
def c1StL2 : Wstate := (getWire c1StL "a.b").2

/-- Session 2 continued: the state after reading the private unit through
the proxy that `wireAB("..")` returned. -/
def c1StL3 : Wstate :=
  match proxyGet c1StL2 1 "priv" with
  | .ok (_, st) => st
  | .error _ => c1StL2

/-- An async-factory-marked function (`isFactory`, `isAsync`) with body
id 20. -/
def c4AsyncFn : JVal := .fn 20 [("isFactory", .boolv true),
  ("isAsync", .boolv true)]

/-- A root block with a plain unit and one async-factory unit. -/
def c4Defs : JVal := .obj [
  (.str "val", .strv "v"),
  (.str "af", c4AsyncFn)]

/-- The root block definition as stored in the hub (tag appended). -/
def c4Root : JVal := ensureTagged c4Defs

/-- The final session state of `wireUp(c4Defs)` (the promise case). -/
def c4Stf : Wstate :=
  match wireUp c4Defs with
  | .prom _ st => st
  | .sync _ st => st

/-- A factory-marked function (`isFactory = true`) with body id 7. -/
def c5FactFn : JVal := .fn 7 [("isFactory", .boolv true)]

/-- A root block carrying one unit of each encoding: factory/bound/plain
as marker-tagged functions and as `defineUnit` wrappers. -/
def c5Defs : JVal := .obj [
  (.str "f", c5FactFn),
  (.str "bf", .fn 8 [("isBound", .boolv true)]),
  (.str "pl", .strv "plain"),
  (.str "fd", .obj [(.sym "unit", .fn 9 []),
                    (.str "opts", .obj [(.str "isFactory", .boolv true)])]),
  (.str "bd", .obj [(.sym "unit", .fn 10 []),
                    (.str "opts", .obj [(.str "isBound", .boolv true)])]),
  (.str "pd", .obj [(.sym "unit", .strv "pv"), (.str "opts", .obj [])])]

/-- The root block definition as stored in the hub (tag appended). -/
def c5Root : JVal := ensureTagged c5Defs

/-- The session state right after `wireUp(c5Defs)`. -/
def c5St : Wstate :=
  match wireUp c5Defs with
  | .sync _ st => st
  | .prom _ st => st

/-- The state after obtaining the root proxy (id 1) via `wire("")`. -/
def c5StP : Wstate :=
  match wireCall c5St "" "" with
  | .ok (_, st) => st
  | .error _ => c5St

/-- The root proxy object as allocated in `c5StP`. -/
def c5Proxy : ProxyObj := ⟨"", false, ["f", "bf", "pl", "fd", "bd", "pd"], []⟩

/-- A fresh session over `demoDefs` holding the local proxy (id 1) of
block `a`, for exercising first/second reads. -/
def c6St : Wstate :=
  match wireCall demoSt "a" "." with
  | .ok (_, st) => st
  | .error _ => demoSt

/-- The state after the first read of `pub` through proxy 1 in `c6St`. -/
def c6Post : Wstate :=
  match proxyGet c6St 1 "pub" with
  | .ok (_, st) => st
  | .error _ => c6St

/-- The state after the first `wireA(".b")` call of the identity bug. -/
def c2St1 : Wstate :=
  match wireCall demoSt "a" ".b" with
  | .ok (_, st) => st
  | .error _ => demoSt

/-- The state after the second `wireA(".b")` call. -/
def c2St2 : Wstate :=
  match wireCall c2St1 "a" ".b" with
  | .ok (_, st) => st
  | .error _ => c2St1

/-- An entry the async pre-pass resolves: an async-factory-marked function
(the `isFunction` guard of the source's first branch included) or an
async-factory unit definition. -/
def isAsyncItem (item : JVal) : Bool :=
  (isFunction item && isAsyncFactoryFunc item) || isAsyncFactoryDef item

/-- The body id the async pre-pass invokes for an async entry: the function
itself in the marker-function encoding, the wrapped function in the
`defineUnit` encoding (mirrors the branch order of
`resolveAsyncFactories`). -/
def asyncFid (item : JVal) : Nat :=
  if isFunction item && isAsyncFactoryFunc item then fidOf item
  else fidOf (innerVal item)

/-- One iteration of the `resolveAsyncFactories` fold over the hub keys
(the hub is captured, as `defs` is in the source). -/
def rafStep (hub : List (String × JVal)) (acc : Wstate) (blockKey : String) :
    Wstate :=
  let block := (alookup hub blockKey).getD .undefv
  resolveAsyncBlock blockKey block (strKeys (fieldsOf block)) acc

/-- No duplicates in a key list (Boolean, for decidable well-formedness
of concrete trees). -/
def nodupB : List String → Bool
  | [] => true
  | x :: xs => !xs.contains x && nodupB xs

/-- A well-formed block key: non-empty and dot-free, so that dot-joined
paths decompose uniquely. -/
def goodKey (s : String) : Bool := !decide (s = "") && !s.data.contains '.'

mutual

/-- Well-formed definition tree: at every object level the string keys are
duplicate-free, non-empty and dot-free (true of every tree assembled from
JS module exports). -/
def wfTree : JVal → Bool
  | .obj fields => nodupB (strKeys fields) && wfFields fields
  | _ => true

/-- `wfTree` over an object's fields. -/
def wfFields : List (JKey × JVal) → Bool
  | [] => true
  | (.str k, v) :: rest => goodKey k && wfTree v && wfFields rest
  | (.sym _, _) :: rest => wfFields rest

end

/-- A descending chain of tagged blocks: `Chain t rel b` holds when
following the dot-joined relative path `rel` from tree `t` through
entries that are tagged blocks at every step reaches the block `b`. -/
inductive Chain : JVal → String → JVal → Prop where
  | here {t : JVal} {k : String} {b : JVal} :
      alookup (fieldsOf t) (.str k) = some b → itemIsBlock b = true →
      Chain t k b
  | there {t : JVal} {k rel : String} {m b : JVal} :
      alookup (fieldsOf t) (.str k) = some m → itemIsBlock m = true →
      Chain m rel b → Chain t (k ++ "." ++ rel) b

/-- A tree whose block `mid` owns no direct unit but a qualifying
sub-block, for the flattening edge case. -/
def c8Defs : JVal := .obj [
  (.str "u", .strv "x"),
  (.str "mid", .obj [
    (.str "$", blockTag),
    (.str "inner", .obj [(.str "$", blockTag), (.str "w", .strv "y")])])]

/-! # Theorems -/

theorem alookup_aset {κ α : Type} [DecidableEq κ] (m : List (κ × α))
    (k k' : κ) (v : α) :
    alookup (aset m k v) k' = if k = k' then some v else alookup m k' := by
  induction m with
  | nil => by_cases h : k = k' <;> simp [aset, alookup, h]
  | cons hd t ih =>
    obtain ⟨k0, v0⟩ := hd
    by_cases hk : k0 = k
    · subst hk
      by_cases h2 : k0 = k' <;> simp [aset, alookup, h2]
    · by_cases h2 : k0 = k'
      · subst h2
        have : k ≠ k0 := fun h => hk h.symm
        simp [aset, hk, alookup, this]
      · simp [aset, hk, alookup, h2, ih]

theorem alookup_aset_self {κ α : Type} [DecidableEq κ] (m : List (κ × α))
    (k : κ) (v : α) : alookup (aset m k v) k = some v := by
  simp [alookup_aset]

theorem alookup_aset_ne {κ α : Type} [DecidableEq κ] (m : List (κ × α))
    (k k' : κ) (v : α) (h : k ≠ k') :
    alookup (aset m k v) k' = alookup m k' := by
  simp [alookup_aset, h]

/-- Claim C10: from the wire bound to block path `p`, a relative key `k`
(starting with `.`, other than `.` and `..`) whose concatenated path
`p ++ k` is not a hub key does not raise the `Unit ... not found` error:
`createBlockProxy` is called unguarded, `getBlockUnitKeys` hits an
`undefined` block definition, and the `TypeError` from
`Object.keys(undefined)` escapes instead. -/
theorem childPathMiss_typeError (st : Wstate) (localPath key : String)
    (hpc : alookup st.proxyC key = none)
    (hdot : jsStartsWith key "." = true)
    (h1 : key ≠ ".") (h2 : key ≠ "..")
    (hmiss : alookup st.hub (localPath ++ key) = none) :
    wireCall st localPath key = .error (.typeErr (localPath ++ key)) ∧
      ∀ k p, wireCall st localPath key ≠ .error (.unitNotFound k p) := by
  have hcall : wireCall st localPath key
      = .error (.typeErr (localPath ++ key)) := by
    rw [wireCall, hpc]
    simp only [h1, h2, hdot, if_false, if_true, ite_false, ite_true]
    rw [createBlockProxy, hmiss]
    rfl
  exact ⟨hcall, fun k p => by rw [hcall]; simp⟩

/-- Witness for C10 at a concrete session: in `demoSt`, the call
`wire("a")(".zz")` produces the `TypeError` for path `"a.zz"`. -/
theorem childPathMiss_typeError_witness :
    wireCall demoSt "a" ".zz" = .error (.typeErr "a.zz") ∧
      ∀ k p, wireCall demoSt "a" ".zz" ≠ .error (.unitNotFound k p) :=
  childPathMiss_typeError demoSt "a" ".zz" rfl (by decide) (by decide) (by decide)
    rfl

/-- Claim C7 counterexample: the circuit `c7Circuit` declares required
inputs `x` and `y`; the adapter `{x: "foo"}` omits `y`; yet `plug` returns
normally (no construction-time error exists in the emitted code), storing
the incomplete adapter verbatim. -/
theorem plug_missingRequiredInput_noError :
    strKeys (fieldsOf
      ((alookup (fieldsOf c7Circuit) (.str "__inputs")).getD .undefv))
      = ["x", "y"] ∧
    alookup (fieldsOf c7Adapter) (.str "y") = none ∧
    plug c7Circuit c7Adapter = .obj [
      (.str "__isPlugin", .boolv true),
      (.str "__circuit", c7Circuit),
      (.str "__adapter", c7Adapter),
      (.str "__inputs", .obj [])] :=
  ⟨rfl, rfl, rfl⟩

/-- Claim C7 (amended): `plug` performs no runtime validation of the
adapter — for every circuit and every adapter, complete or not, it
succeeds and stores the circuit and the adapter for later resolution
(adapter completeness is enforced only by the static type system). -/
theorem plug_storesCircuitAndAdapter (c a : JVal) :
    plug c a = .obj [
      (.str "__isPlugin", .boolv true),
      (.str "__circuit", c),
      (.str "__adapter", a),
      (.str "__inputs", .obj [])] ∧
    alookup (fieldsOf (plug c a)) (.str "__circuit") = some c ∧
    alookup (fieldsOf (plug c a)) (.str "__adapter") = some a :=
  ⟨rfl, rfl, rfl⟩

/-- Scanning the object built by `plug` collects nothing: each of its four
fields is skipped by `extractGo` (given that the stored circuit and
adapter values are not themselves plugin- or block-shaped). -/
theorem extract_plug_noop (c a : JVal)
    (hc1 : isPlugin c = false) (hc2 : itemIsBlock c = false)
    (ha1 : isPlugin a = false) (ha2 : itemIsBlock a = false)
    (acc : List (String × JVal)) (fk : String) :
    extractPluginAdapters (plug c a) acc fk = acc := by
  show extractGo _ acc fk = acc
  rw [extractGo]
  simp only [reduceIte, show isHashmap (.boolv true) = false from rfl,
    Bool.not_false, if_true]
  rw [extractGo]
  cases hcm : isHashmap c with
  | false => simp only [hcm, Bool.not_false, if_true, if_false, reduceIte]
             rw [extractGo]
             cases ham : isHashmap a with
             | false =>
               simp only [ham, Bool.not_false, if_true, if_false, reduceIte]
               rfl
             | true =>
               simp only [ham, Bool.not_true, Bool.false_eq_true, if_false,
                 reduceIte, ha1, ha2]
               rfl
  | true => simp only [hcm, Bool.not_true, Bool.false_eq_true, if_false,
              reduceIte, hc1, hc2]
            rw [extractGo]
            cases ham : isHashmap a with
            | false =>
              simp only [ham, Bool.not_false, if_true, if_false, reduceIte]
              rfl
            | true =>
              simp only [ham, Bool.not_true, Bool.false_eq_true, if_false,
                reduceIte, ha1, ha2]
              rfl

/-- Claim C9: an object produced by `plug` is never recognized by
`isPlugin` (`plug` sets `__adapter` but never the `__connector` field
`isPlugin` requires), so the structural scan `extractPluginAdapters`
collects nothing from it: inserting a `plug`-produced entry anywhere in a
scanned object leaves the collected adapter map unchanged. -/
theorem plugResult_invisible (c a : JVal)
    (hc1 : isPlugin c = false) (hc2 : itemIsBlock c = false)
    (ha1 : isPlugin a = false) (ha2 : itemIsBlock a = false) :
    isPlugin (plug c a) = false ∧
    ∀ (fl1 fl2 : List (JKey × JVal)) (k pk : String)
      (acc : List (String × JVal)),
      extractGo (fl1 ++ (.str k, plug c a) :: fl2) acc pk
        = extractGo (fl1 ++ fl2) acc pk := by
  refine ⟨rfl, ?_⟩
  intro fl1
  induction fl1 with
  | nil =>
    intro fl2 k pk acc
    simp only [List.nil_append]
    rw [extractGo]
    by_cases hk : k = "$"
    · simp [hk]
    · simp only [hk, if_false, show isHashmap (plug c a) = true from rfl,
        Bool.not_true, Bool.false_eq_true, if_false,
        show isPlugin (plug c a) = false from rfl, reduceIte]
      by_cases hpfx : jsStartsWith k "$" = true
      · simp only [hpfx, show itemIsBlock (plug c a) = false from rfl,
          Bool.true_or, if_true, reduceIte,
          extract_plug_noop c a hc1 hc2 ha1 ha2]
      · simp only [Bool.not_eq_true] at hpfx
        simp only [hpfx, show itemIsBlock (plug c a) = false from rfl,
          Bool.false_or, Bool.false_eq_true, if_false, reduceIte]
  | cons hd t ih =>
    intro fl2 k pk acc
    obtain ⟨hk, hv⟩ := hd
    cases hk with
    | sym s =>
      simp only [List.cons_append]
      rw [extractGo, extractGo]
      exact ih fl2 k pk acc
    | str s =>
      simp only [List.cons_append]
      rw [extractGo, extractGo]
      by_cases hs : s = "$"
      · simp only [hs, if_true, reduceIte]
        exact ih fl2 k pk acc
      · simp only [hs, if_false, reduceIte]
        by_cases hm : isHashmap hv = true
        · simp only [hm, Bool.not_true, Bool.false_eq_true, if_false,
            reduceIte]
          by_cases hp : isPlugin hv = true
          · simp only [hp, if_true, reduceIte]
            exact ih fl2 k pk _
          · simp only [hp, Bool.false_eq_true, if_false, reduceIte]
            by_cases hb : (jsStartsWith s "$" || itemIsBlock hv) = true
            · simp only [hb, if_true, reduceIte]
              exact ih fl2 k pk _
            · simp only [hb, Bool.false_eq_true, if_false, reduceIte]
              exact ih fl2 k pk acc
        · simp only [Bool.not_eq_true] at hm
          simp only [hm, Bool.not_false, if_true, reduceIte]
          exact ih fl2 k pk acc

/-- Witness for C9 at concrete values: the plugin built from `c7Circuit`
and `c7Adapter` fails `isPlugin` and is ignored by the scan wherever it is
inserted. -/
theorem plugResult_invisible_witness :
    isPlugin (plug c7Circuit c7Adapter) = false ∧
    ∀ (fl1 fl2 : List (JKey × JVal)) (k pk : String)
      (acc : List (String × JVal)),
      extractGo (fl1 ++ (.str k, plug c7Circuit c7Adapter) :: fl2) acc pk
        = extractGo (fl1 ++ fl2) acc pk :=
  plugResult_invisible c7Circuit c7Adapter rfl rfl rfl rfl

/-- Claim C1 evaluated at the failing input (code bug): in `demoDefs`,
block `a` declares the public unit `pub` and the private unit `priv`.
Because the `".."` branch of `getWire` shares the `localProxy` cache with
the `"."` branch, the two interleavings both violate the claim.
Session 1: after `wireAB("..")` caches the *public* proxy of `a` under
`localProxy["a"]` (proxy id 2), `wireA(".")` returns that very proxy, so
the block's own local proxy does not enumerate `priv` and throws
`no unit named` on it — contradicting "the local proxy always includes
private units".  Session 2 (converse order): after `wireA(".")` caches the
*local* proxy (id 1), `wireAB("..")` returns it, so the private unit is
enumerable and readable through a `".."` proxy — contradicting "throws the
'no unit named' error through any other proxy". -/
theorem localProxyCache_sharedWithParentNav :
    (wireCall c1StA "a.b" ".." = .ok (2, c1StB) ∧
     wireCall c1StB "a" "." = .ok (2, c1StB) ∧
     proxyOwnKeys c1StB 2 = ["pub"] ∧
     proxyGet c1StB 2 "priv" = .error (.noUnit "a" "priv")) ∧
    (wireCall demoSt "a" "." = .ok (1, c1StL) ∧
     proxyOwnKeys c1StL 1 = ["pub", "priv"] ∧
     wireCall c1StL2 "a.b" ".." = .ok (1, c1StL2) ∧
     proxyGet c1StL2 1 "priv" = .ok (.raw privFn, c1StL3)) :=
  ⟨⟨rfl, rfl, rfl, rfl⟩, ⟨rfl, rfl, rfl, rfl⟩⟩

/-- Claim C2 evaluated at the failing input (code bug): the wire of block
`a` called twice with the relative child key `".b"` returns two *distinct*
proxy objects (ids 1 and 2): the memo lookup uses the relative key `".b"`
but the proxy is stored under the absolute path `"a.b"`, so the lookup
never hits and the cache entry for `"a.b"` is overwritten on every call —
the proxy cache is not a write-once memoization table and repeated calls
are not identity-same. -/
theorem childKey_freshProxyEachCall :
    wireCall demoSt "a" ".b" = .ok (1, c2St1) ∧
    wireCall c2St1 "a" ".b" = .ok (2, c2St2) ∧
    (1 : Nat) ≠ 2 ∧
    alookup c2St1.proxyC "a.b" = some 1 ∧
    alookup c2St2.proxyC "a.b" = some 2 ∧
    alookup c2St1.proxyC ".b" = none :=
  ⟨rfl, rfl, by decide, rfl, rfl, rfl⟩

theorem getWire_wireC (st : Wstate) (lp : String) :
    alookup (getWire st lp).2.wireC lp = some (getWire st lp).1 := by
  rw [getWire]
  cases h : alookup st.wireC lp with
  | some w => simp [h]
  | none => simp [h, alookup_aset_self]

theorem getWire_calls (st : Wstate) (lp : String) :
    (getWire st lp).2.calls = st.calls := by
  rw [getWire]; cases h : alookup st.wireC lp <;> simp [h]

theorem getWire_heap (st : Wstate) (lp : String) :
    (getWire st lp).2.heap = st.heap := by
  rw [getWire]; cases h : alookup st.wireC lp <;> simp [h]

theorem getWire_unitC (st : Wstate) (lp : String) :
    (getWire st lp).2.unitC = st.unitC := by
  rw [getWire]; cases h : alookup st.wireC lp <;> simp [h]

theorem getWire_hub (st : Wstate) (lp : String) :
    (getWire st lp).2.hub = st.hub := by
  rw [getWire]; cases h : alookup st.wireC lp <;> simp [h]

/-- `proxyGet` on a complete miss (nothing cached yet): resolves the raw
definition with the owning block's memoized wire and writes the result into
the proxy target, the unit cache and the call log. -/
theorem proxyGet_resolve (st : Wstate) (pid : Nat) (prop : String)
    (p : ProxyObj) (bdef d : JVal)
    (hp : alookup st.heap pid = some p)
    (htgt : alookup p.tgt prop = none)
    (huk : p.unitKeys.contains prop = true)
    (hu : alookup st.unitC (fqKey p.blockPath prop) = none)
    (hb : alookup st.hub p.blockPath = some bdef)
    (hd : alookup (fieldsOf bdef) (.str prop) = some d) :
    proxyGet st pid prop = .ok ((resolveDef d (getWire st p.blockPath).1).1,
      { (getWire st p.blockPath).2 with
        heap := aset (getWire st p.blockPath).2.heap pid
          { p with
            tgt := aset p.tgt prop (resolveDef d (getWire st p.blockPath).1).1 },
        unitC := aset (getWire st p.blockPath).2.unitC (fqKey p.blockPath prop)
          (resolveDef d (getWire st p.blockPath).1).1,
        calls := (resolveDef d (getWire st p.blockPath).1).2
          ++ (getWire st p.blockPath).2.calls }) := by
  have hb' : alookup (getWire st p.blockPath).2.hub p.blockPath
      = some bdef := by rw [getWire_hub]; exact hb
  rw [proxyGet, hp]
  simp only [htgt, huk, if_true, hu, hb, hd]

/-- Claim C5: kind-resolution postconditions of a first property access
(nothing cached).  There is a wire `wid` — the owning block's own memoized
wire, as witnessed by the wire-cache lookup — such that: a factory-marked
function resolves to the value returned by invoking it exactly once with
that wire as its single argument (one new entry in the call log); a
bound-marked function resolves to the function with its receiver bound to
that wire, with no invocation; an unmarked definition (plain unit)
resolves to the value itself; and the three `defineUnit`-wrapper cases
resolve identically via the wrapped inner function/value. -/
theorem kindResolutionPostconditions (st : Wstate) (pid : Nat)
    (prop : String) (p : ProxyObj) (bdef d : JVal)
    (hp : alookup st.heap pid = some p)
    (htgt : alookup p.tgt prop = none)
    (huk : p.unitKeys.contains prop = true)
    (hu : alookup st.unitC (fqKey p.blockPath prop) = none)
    (hb : alookup st.hub p.blockPath = some bdef)
    (hd : alookup (fieldsOf bdef) (.str prop) = some d) :
    ∃ wid st2,
      proxyGet st pid prop = .ok ((resolveDef d wid).1, st2) ∧
      alookup st2.wireC p.blockPath = some wid ∧
      (isFactoryFunc d = true →
        (resolveDef d wid).1 = .factRes (fidOf d) wid ∧
        st2.calls = (fidOf d, wid) :: st.calls) ∧
      (isFactoryFunc d = false → isBoundFunc d = true →
        (resolveDef d wid).1 = .boundFn (fidOf d) wid ∧
        st2.calls = st.calls) ∧
      (isFactoryFunc d = false → isBoundFunc d = false →
        isUnitDef d = false →
        (resolveDef d wid).1 = .raw d ∧ st2.calls = st.calls) ∧
      (isFactoryFunc d = false → isBoundFunc d = false →
        isFactoryDef d = true →
        (resolveDef d wid).1 = .factRes (fidOf (innerVal d)) wid ∧
        st2.calls = (fidOf (innerVal d), wid) :: st.calls) ∧
      (isFactoryFunc d = false → isBoundFunc d = false →
        isFactoryDef d = false → isBoundDef d = true →
        (resolveDef d wid).1 = .boundFn (fidOf (innerVal d)) wid ∧
        st2.calls = st.calls) ∧
      (isFactoryFunc d = false → isBoundFunc d = false →
        isUnitDef d = true → isFactoryDef d = false → isBoundDef d = false →
        (resolveDef d wid).1 = .raw (innerVal d) ∧
        st2.calls = st.calls) := by
  refine ⟨(getWire st p.blockPath).1, _,
    proxyGet_resolve st pid prop p bdef d hp htgt huk hu hb hd, ?_, ?_, ?_, ?_, ?_, ?_, ?_⟩
  · show alookup (getWire st p.blockPath).2.wireC p.blockPath = _
    exact getWire_wireC st p.blockPath
  · intro h1
    constructor
    · simp [resolveDef, h1]
    · show (resolveDef d _).2 ++ (getWire st p.blockPath).2.calls = _
      simp [resolveDef, h1, getWire_calls]
  · intro h1 h2
    constructor
    · simp [resolveDef, h1, h2]
    · show (resolveDef d _).2 ++ (getWire st p.blockPath).2.calls = _
      simp [resolveDef, h1, h2, getWire_calls]
  · intro h1 h2 h3
    constructor
    · simp [resolveDef, h1, h2, h3]
    · show (resolveDef d _).2 ++ (getWire st p.blockPath).2.calls = _
      simp [resolveDef, h1, h2, h3, getWire_calls]
  · intro h1 h2 h3
    have hud : isUnitDef d = true := by
      rcases Bool.and_eq_true .. |>.mp h3 with ⟨h4, _⟩
      exact (Bool.and_eq_true .. |>.mp h4).1
    constructor
    · simp [resolveDef, h1, h2, hud, h3]
    · show (resolveDef d _).2 ++ (getWire st p.blockPath).2.calls = _
      simp [resolveDef, h1, h2, hud, h3, getWire_calls]
  · intro h1 h2 h3 h4
    have hud : isUnitDef d = true := by
      rcases Bool.and_eq_true .. |>.mp h4 with ⟨h5, _⟩
      exact (Bool.and_eq_true .. |>.mp h5).1
    constructor
    · simp [resolveDef, h1, h2, hud, h3, h4]
    · show (resolveDef d _).2 ++ (getWire st p.blockPath).2.calls = _
      simp [resolveDef, h1, h2, hud, h3, h4, getWire_calls]
  · intro h1 h2 h3 h4 h5
    constructor
    · simp [resolveDef, h1, h2, h3, h4, h5]
    · show (resolveDef d _).2 ++ (getWire st p.blockPath).2.calls = _
      simp [resolveDef, h1, h2, h3, h4, h5, getWire_calls]

/-- Witness for C5 at a concrete session: first read of the
factory-marked unit `f` (body id 7) on the root proxy of `c5Defs` yields
the symbolic result of invoking body 7 with the root wire, that wire is
the root block's memoized wire, and the call log records exactly that one
invocation. -/
theorem kindResolutionPostconditions_witness :
    ∃ wid st2,
      proxyGet c5StP 1 "f" = .ok (.factRes 7 wid, st2) ∧
      alookup st2.wireC "" = some wid ∧
      st2.calls = [(7, wid)] := by
  obtain ⟨wid, st2, h1, h2, h3, -, -, -, -, -⟩ :=
    kindResolutionPostconditions c5StP 1 "f" c5Proxy c5Root c5FactFn
      rfl rfl rfl rfl rfl rfl
  obtain ⟨hv, hc⟩ := h3 rfl
  refine ⟨wid, st2, ?_, h2, ?_⟩
  · rw [h1, hv]
    rfl
  · rw [hc]
    rfl

/-- Claim C6: idempotent resolution.  If a first read of `prop` through a
proxy succeeds (nothing in the proxy target beforehand), then a second
read returns the *same* value with the state completely unchanged — the
second read is served from the proxy-local target, so no factory or
bound-producing function is re-invoked (the call log is part of the
unchanged state) — and the first resolved value is cached both in the
proxy-local target and in the session unit cache under the fully
qualified key. -/
theorem idempotentResolution (st : Wstate) (pid : Nat) (prop : String)
    (p : ProxyObj) (v : RVal) (st1 : Wstate)
    (hp : alookup st.heap pid = some p)
    (hfirst : alookup p.tgt prop = none)
    (hrun : proxyGet st pid prop = .ok (v, st1)) :
    proxyGet st1 pid prop = .ok (v, st1) ∧
    (∃ p1, alookup st1.heap pid = some p1 ∧ alookup p1.tgt prop = some v) ∧
    alookup st1.unitC (fqKey p.blockPath prop) = some v := by
  by_cases huk : p.unitKeys.contains prop = true
  case neg =>
    simp only [proxyGet, hp, hfirst, huk, Bool.false_eq_true, if_false] at hrun
    exact Except.noConfusion hrun
  case pos =>
    simp only [proxyGet, hp, hfirst, huk, if_true] at hrun
    cases hu : alookup st.unitC (fqKey p.blockPath prop) with
    | some u =>
      simp only [hu, Except.ok.injEq, Prod.mk.injEq] at hrun
      obtain ⟨rfl, rfl⟩ := hrun
      refine ⟨?_, ⟨_, alookup_aset_self .., alookup_aset_self ..⟩, hu⟩
      rw [proxyGet]
      simp only [alookup_aset_self]
    | none =>
      cases hb : alookup st.hub p.blockPath with
      | none =>
        simp only [hu, hb] at hrun
        exact Except.noConfusion hrun
      | some bdef =>
        cases hd : alookup (fieldsOf bdef) (.str prop) with
        | none =>
          simp only [hu, hb, hd] at hrun
          exact Except.noConfusion hrun
        | some d =>
          simp only [hu, hb, hd, Except.ok.injEq, Prod.mk.injEq] at hrun
          obtain ⟨rfl, rfl⟩ := hrun
          refine ⟨?_, ⟨_, alookup_aset_self .., alookup_aset_self ..⟩,
            alookup_aset_self ..⟩
          rw [proxyGet]
          simp only [alookup_aset_self]

/-- Witness for C6 at a concrete session: after the first read of `pub`
through the local proxy of block `a`, a second read returns the same value
with the state (call log included) unchanged, and the value sits in both
the proxy target and the unit cache under `"a.pub"`. -/
theorem idempotentResolution_witness :
    proxyGet c6Post 1 "pub" = .ok (.raw (.strv "x"), c6Post) ∧
    (∃ p1, alookup c6Post.heap 1 = some p1 ∧
      alookup p1.tgt "pub" = some (.raw (.strv "x"))) ∧
    alookup c6Post.unitC (fqKey "a" "pub") = some (.raw (.strv "x")) :=
  idempotentResolution c6St 1 "pub" ⟨"a", true, ["pub", "priv"], []⟩
    (.raw (.strv "x")) c6Post rfl rfl rfl

theorem alookup_nil {κ α : Type} [DecidableEq κ] (k : κ) :
    alookup ([] : List (κ × α)) k = none := rfl

theorem mem_map_fst_of_alookup {κ α : Type} [DecidableEq κ]
    {m : List (κ × α)} {k : κ} {v : α} (h : alookup m k = some v) :
    k ∈ m.map Prod.fst := by
  induction m with
  | nil => simp [alookup] at h
  | cons hd t ih =>
    obtain ⟨k0, v0⟩ := hd
    by_cases hk : k0 = k
    · simp [hk]
    · rw [alookup, if_neg hk] at h
      simp [ih h]

theorem alookup_isSome_of_mem_fst {κ α : Type} [DecidableEq κ]
    {m : List (κ × α)} {k : κ} (h : k ∈ m.map Prod.fst) :
    ∃ v, alookup m k = some v := by
  induction m with
  | nil => simp at h
  | cons hd t ih =>
    obtain ⟨k0, v0⟩ := hd
    by_cases hk : k0 = k
    · exact ⟨v0, by rw [alookup, if_pos hk]⟩
    · simp only [List.map_cons, List.mem_cons] at h
      rcases h with h | h
      · exact absurd h.symm hk
      · obtain ⟨v, hv⟩ := ih h
        exact ⟨v, by rw [alookup, if_neg hk]; exact hv⟩

/-- `hasAsyncKeys` is false exactly when no entry of any block of the flat
map is an async-factory function or async-factory unit definition. -/
theorem hasAsyncKeys_eq_false_iff (hub : List (String × JVal)) :
    hasAsyncKeys hub = false ↔
      ∀ p b, alookup hub p = some b →
        ∀ k ∈ strKeys (fieldsOf b),
          isAsyncFactoryFunc ((alookup (fieldsOf b) (.str k)).getD .undefv)
            = false ∧
          isAsyncFactoryDef ((alookup (fieldsOf b) (.str k)).getD .undefv)
            = false := by
  rw [hasAsyncKeys]
  rw [Bool.eq_false_iff, Ne, List.any_eq_true]
  constructor
  · intro hno p b hb k hk
    by_contra hcon
    apply hno
    refine ⟨p, mem_map_fst_of_alookup hb, ?_⟩
    rw [hb]
    simp only [Option.getD_some, List.any_eq_true]
    refine ⟨k, hk, ?_⟩
    rw [Bool.or_eq_true]
    rcases Decidable.not_and_iff_or_not.mp hcon with h | h
    · exact Or.inl (Bool.not_eq_false _ |>.mp h)
    · exact Or.inr (Bool.not_eq_false _ |>.mp h)
  · rintro hall ⟨p, hp, hinner⟩
    obtain ⟨b, hb⟩ := alookup_isSome_of_mem_fst hp
    rw [hb] at hinner
    simp only [Option.getD_some, List.any_eq_true] at hinner
    obtain ⟨k, hk, hitem⟩ := hinner
    rcases Bool.or_eq_true .. |>.mp hitem with h | h
    · exact absurd h (by rw [(hall p b hb k hk).1]; simp)
    · exact absurd h (by rw [(hall p b hb k hk).2]; simp)

/-- Claim C3: `wireUp` returns the root wire synchronously iff no unit
definition anywhere in the flattened tree (the hub built by `mapBlocks`
plus the root entry) is of asyncFactory kind — neither an
async-factory-marked function nor an async-factory `defineUnit` wrapper;
otherwise it returns a promise of the root wire. -/
theorem wireUpSync_iff_noAsync (defs : JVal) :
    (∃ w st, wireUp defs = .sync w st) ↔
      ∀ p b, alookup (buildHub defs) p = some b →
        ∀ k ∈ strKeys (fieldsOf b),
          isAsyncFactoryFunc ((alookup (fieldsOf b) (.str k)).getD .undefv)
            = false ∧
          isAsyncFactoryDef ((alookup (fieldsOf b) (.str k)).getD .undefv)
            = false := by
  rw [← hasAsyncKeys_eq_false_iff]
  constructor
  · rintro ⟨w, st, hw⟩
    rw [wireUp] at hw
    by_cases h : hasAsyncKeys (buildHub defs) = true
    · simp only [h, if_true] at hw
      exact absurd hw (by simp)
    · exact Bool.not_eq_true _ |>.mp h
  · intro h
    rw [wireUp]
    simp only [h, Bool.false_eq_true, if_false]
    exact ⟨_, _, rfl⟩

theorem raf_eq_foldl (st : Wstate) :
    resolveAsyncFactories st
      = (st.hub.map Prod.fst).foldl (rafStep st.hub) st := rfl

theorem getWire_proxyC (st : Wstate) (lp : String) :
    (getWire st lp).2.proxyC = st.proxyC := by
  rw [getWire]; cases h : alookup st.wireC lp <;> simp [h]

theorem getWire_localC (st : Wstate) (lp : String) :
    (getWire st lp).2.localC = st.localC := by
  rw [getWire]; cases h : alookup st.wireC lp <;> simp [h]

theorem getWire_pres_wireC {st : Wstate} {x : String} {w : Nat}
    (h : alookup st.wireC x = some w) (y : String) :
    alookup (getWire st y).2.wireC x = some w := by
  rw [getWire]
  cases hy : alookup st.wireC y with
  | some _ => exact h
  | none =>
    by_cases hxy : y = x
    · subst hxy; rw [hy] at h; cases h
    · simpa [alookup_aset_ne _ _ _ _ hxy] using h

theorem getWire_of_cached {st : Wstate} {y : String} {w : Nat}
    (h : alookup st.wireC y = some w) :
    getWire st y = (w, st) := by
  rw [getWire, h]

/-- `resolveAsyncBlock` never touches the hub, the proxy caches or the
heap. -/
theorem rab_frame (bk : String) (b : JVal) (keys : List String)
    (st : Wstate) :
    (resolveAsyncBlock bk b keys st).hub = st.hub ∧
    (resolveAsyncBlock bk b keys st).proxyC = st.proxyC ∧
    (resolveAsyncBlock bk b keys st).localC = st.localC ∧
    (resolveAsyncBlock bk b keys st).heap = st.heap := by
  induction keys generalizing st with
  | nil => exact ⟨rfl, rfl, rfl, rfl⟩
  | cons k0 rest ih =>
    rw [resolveAsyncBlock]
    split
    · refine ⟨?_, ?_, ?_, ?_⟩ <;>
        simp [(ih _).1, (ih _).2.1, (ih _).2.2.1, (ih _).2.2.2,
          getWire_hub, getWire_proxyC, getWire_localC, getWire_heap]
    · split
      · refine ⟨?_, ?_, ?_, ?_⟩ <;>
          simp [(ih _).1, (ih _).2.1, (ih _).2.2.1, (ih _).2.2.2,
            getWire_hub, getWire_proxyC, getWire_localC, getWire_heap]
      · exact ih st

theorem fqKey_inj_right {p k1 k2 : String} (h : fqKey p k1 = fqKey p k2) :
    k1 = k2 := by
  unfold fqKey at h
  by_cases hp : p = ""
  · simpa [hp] using h
  · simp only [hp, if_false] at h
    have hd := congrArg String.data h
    simp only [String.data_append] at hd
    have := List.append_cancel_left hd
    cases k1; cases k2
    exact congrArg String.mk (by simpa using this)

/-- `resolveAsyncBlock` preserves an already-written wire-cache entry and
unit-cache entry, provided any colliding fully-qualified key inside this
block would rewrite the same value. -/
theorem rab_pres (p k : String) (wid fidv : Nat) (bk : String) (b2 : JVal)
    (keys : List String) (st : Wstate)
    (hW : alookup st.wireC p = some wid)
    (hU : alookup st.unitC (fqKey p k) = some (.factRes fidv wid))
    (hsafe : ∀ k2 ∈ keys, fqKey bk k2 = fqKey p k →
      bk = p ∧ asyncFid ((alookup (fieldsOf b2) (.str k2)).getD .undefv) = fidv) :
    alookup (resolveAsyncBlock bk b2 keys st).wireC p = some wid ∧
    alookup (resolveAsyncBlock bk b2 keys st).unitC (fqKey p k)
      = some (.factRes fidv wid) := by
  induction keys generalizing st with
  | nil => exact ⟨hW, hU⟩
  | cons k0 rest ih =>
    rw [resolveAsyncBlock]
    by_cases h1 : (isFunction ((alookup (fieldsOf b2) (.str k0)).getD .undefv)
        && isAsyncFactoryFunc ((alookup (fieldsOf b2) (.str k0)).getD .undefv))
        = true
    · simp only [h1, if_true]
      rcases hgw : getWire st bk with ⟨wid2, st1⟩
      simp only [hgw]
      have hW1 : alookup st1.wireC p = some wid := by
        have := getWire_pres_wireC hW bk
        rwa [hgw] at this
      have hUeq : st1.unitC = st.unitC := by
        have := getWire_unitC st bk; rwa [hgw] at this
      refine ih _ ?_ ?_ (fun k2 hk2 hc => hsafe k2 (List.mem_cons_of_mem _ hk2) hc)
      · exact hW1
      · show alookup (aset st1.unitC (fqKey bk k0) _) (fqKey p k) = _
        by_cases hcol : fqKey bk k0 = fqKey p k
        · obtain ⟨hbk, hfid⟩ := hsafe k0 (List.mem_cons_self _ _) hcol
          subst hbk
          have hgw' := getWire_of_cached hW
          rw [hgw'] at hgw
          obtain ⟨rfl, rfl⟩ := Prod.mk.injEq .. |>.mp hgw.symm
          rw [hcol, alookup_aset_self]
          rw [asyncFid, if_pos h1] at hfid
          rw [hfid]
        · rw [alookup_aset_ne _ _ _ _ hcol, hUeq]
          exact hU
    · by_cases h2 : isAsyncFactoryDef
          ((alookup (fieldsOf b2) (.str k0)).getD .undefv) = true
      · simp only [h1, h2, Bool.false_eq_true, if_false, if_true]
        rcases hgw : getWire st bk with ⟨wid2, st1⟩
        simp only [hgw]
        have hW1 : alookup st1.wireC p = some wid := by
          have := getWire_pres_wireC hW bk
          rwa [hgw] at this
        have hUeq : st1.unitC = st.unitC := by
          have := getWire_unitC st bk; rwa [hgw] at this
        refine ih _ ?_ ?_ (fun k2 hk2 hc => hsafe k2 (List.mem_cons_of_mem _ hk2) hc)
        · exact hW1
        · show alookup (aset st1.unitC (fqKey bk k0) _) (fqKey p k) = _
          by_cases hcol : fqKey bk k0 = fqKey p k
          · obtain ⟨hbk, hfid⟩ := hsafe k0 (List.mem_cons_self _ _) hcol
            subst hbk
            have hgw' := getWire_of_cached hW
            rw [hgw'] at hgw
            obtain ⟨rfl, rfl⟩ := Prod.mk.injEq .. |>.mp hgw.symm
            rw [hcol, alookup_aset_self]
            rw [asyncFid, if_neg (by simp [h1])] at hfid
            rw [hfid]
          · rw [alookup_aset_ne _ _ _ _ hcol, hUeq]
            exact hU
      · simp only [h1, h2, Bool.false_eq_true, if_false]
        exact ih st hW hU
          (fun k2 hk2 hc => hsafe k2 (List.mem_cons_of_mem _ hk2) hc)

/-- Processing the owning block `p` writes the async unit's resolved value
(there is a wire `wid` for `p`, and the fully-qualified entry holds the
awaited invocation of the item's body with that wire). -/
theorem rab_establish (p k : String) (b : JVal) (keys : List String)
    (st : Wstate) (hk : k ∈ keys)
    (hasync : isAsyncItem ((alookup (fieldsOf b) (.str k)).getD .undefv)
      = true) :
    ∃ wid,
      alookup (resolveAsyncBlock p b keys st).wireC p = some wid ∧
      alookup (resolveAsyncBlock p b keys st).unitC (fqKey p k)
        = some (.factRes
            (asyncFid ((alookup (fieldsOf b) (.str k)).getD .undefv)) wid) := by
  induction keys generalizing st with
  | nil => cases hk
  | cons k0 rest ih =>
    rcases List.mem_cons.mp hk with rfl | kmem
    · -- the head is our key: it takes one of the two async branches
      rw [resolveAsyncBlock]
      by_cases h1 : (isFunction ((alookup (fieldsOf b) (.str k)).getD .undefv)
          && isAsyncFactoryFunc ((alookup (fieldsOf b) (.str k)).getD .undefv))
          = true
      · simp only [h1, if_true]
        rcases hgw : getWire st p with ⟨wid, st1⟩
        simp only [hgw]
        have hW1 : alookup (aset st1.wireC p wid) p = some wid :=
          alookup_aset_self ..
        have hW1' : alookup st1.wireC p = some wid := by
          have := getWire_wireC st p; rw [hgw] at this; exact this
        refine ⟨wid, rab_pres p k wid
          (asyncFid ((alookup (fieldsOf b) (.str k)).getD .undefv)) p b rest _
          hW1' ?_ ?_⟩
        · show alookup (aset st1.unitC (fqKey p k) _) (fqKey p k) = _
          rw [alookup_aset_self, asyncFid, if_pos h1]
        · intro k2 _ hc
          refine ⟨rfl, ?_⟩
          rw [fqKey_inj_right hc]
      · have h2 : isAsyncFactoryDef
            ((alookup (fieldsOf b) (.str k)).getD .undefv) = true := by
          rcases Bool.or_eq_true .. |>.mp hasync with h | h
          · exact absurd h h1
          · exact h
        simp only [h1, h2, Bool.false_eq_true, if_false, if_true]
        rcases hgw : getWire st p with ⟨wid, st1⟩
        simp only [hgw]
        have hW1' : alookup st1.wireC p = some wid := by
          have := getWire_wireC st p; rw [hgw] at this; exact this
        refine ⟨wid, rab_pres p k wid
          (asyncFid ((alookup (fieldsOf b) (.str k)).getD .undefv)) p b rest _
          hW1' ?_ ?_⟩
        · show alookup (aset st1.unitC (fqKey p k) _) (fqKey p k) = _
          rw [alookup_aset_self, asyncFid, if_neg (by simp [h1])]
        · intro k2 _ hc
          refine ⟨rfl, ?_⟩
          rw [fqKey_inj_right hc]
    · -- our key is further along: process the head and recurse
      rw [resolveAsyncBlock]
      by_cases h1 : (isFunction ((alookup (fieldsOf b) (.str k0)).getD .undefv)
          && isAsyncFactoryFunc ((alookup (fieldsOf b) (.str k0)).getD .undefv))
          = true
      · simp only [h1, if_true]
        rcases hgw : getWire st p with ⟨wid2, st1⟩
        simp only [hgw]
        exact ih _ kmem
      · by_cases h2 : isAsyncFactoryDef
            ((alookup (fieldsOf b) (.str k0)).getD .undefv) = true
        · simp only [h1, h2, Bool.false_eq_true, if_false, if_true]
          rcases hgw : getWire st p with ⟨wid2, st1⟩
          simp only [hgw]
          exact ih _ kmem
        · simp only [h1, h2, Bool.false_eq_true, if_false]
          exact ih st kmem

/-- The async-pre-pass fold never touches the hub, the proxy caches or the
heap. -/
theorem raf_frame (hub : List (String × JVal)) (L : List String)
    (st : Wstate) :
    (L.foldl (rafStep hub) st).hub = st.hub ∧
    (L.foldl (rafStep hub) st).proxyC = st.proxyC ∧
    (L.foldl (rafStep hub) st).localC = st.localC ∧
    (L.foldl (rafStep hub) st).heap = st.heap := by
  induction L generalizing st with
  | nil => exact ⟨rfl, rfl, rfl, rfl⟩
  | cons p2 rest ih =>
    rw [List.foldl_cons]
    obtain ⟨ha, hb, hc, hd⟩ := ih (rafStep hub st p2)
    obtain ⟨ha', hb', hc', hd'⟩ := rab_frame p2
      ((alookup hub p2).getD .undefv)
      (strKeys (fieldsOf ((alookup hub p2).getD .undefv))) st
    exact ⟨ha.trans ha', hb.trans hb', hc.trans hc', hd.trans hd'⟩

/-- The async-pre-pass fold preserves the written entry of our async unit,
given global fully-qualified-key injectivity over the processed blocks. -/
theorem raf_pres (hub : List (String × JVal)) (p k : String)
    (wid : Nat) (b : JVal) (hb : alookup hub p = some b)
    (L : List String) (st : Wstate)
    (hW : alookup st.wireC p = some wid)
    (hU : alookup st.unitC (fqKey p k) = some (.factRes
      (asyncFid ((alookup (fieldsOf b) (.str k)).getD .undefv)) wid))
    (hsafeL : ∀ p2 ∈ L,
      ∀ k2 ∈ strKeys (fieldsOf ((alookup hub p2).getD .undefv)),
        fqKey p2 k2 = fqKey p k → p2 = p ∧ k2 = k) :
    alookup (L.foldl (rafStep hub) st).wireC p = some wid ∧
    alookup (L.foldl (rafStep hub) st).unitC (fqKey p k)
      = some (.factRes
        (asyncFid ((alookup (fieldsOf b) (.str k)).getD .undefv)) wid) := by
  induction L generalizing st with
  | nil => exact ⟨hW, hU⟩
  | cons p2 rest ih =>
    rw [List.foldl_cons]
    have hsafe1 : ∀ k2 ∈ strKeys (fieldsOf ((alookup hub p2).getD .undefv)),
        fqKey p2 k2 = fqKey p k →
        p2 = p ∧ asyncFid ((alookup (fieldsOf
          ((alookup hub p2).getD .undefv)) (.str k2)).getD .undefv)
          = asyncFid ((alookup (fieldsOf b) (.str k)).getD .undefv) := by
      intro k2 hk2 hc
      obtain ⟨hp2, hk2eq⟩ := hsafeL p2 (List.mem_cons_self _ _) k2 hk2 hc
      subst hp2
      subst hk2eq
      rw [hb]
      exact ⟨rfl, rfl⟩
    obtain ⟨hW1, hU1⟩ := rab_pres p k wid _ p2
      ((alookup hub p2).getD .undefv)
      (strKeys (fieldsOf ((alookup hub p2).getD .undefv))) st hW hU hsafe1
    exact ih _ hW1 hU1
      (fun q hq k2 hk2 hc => hsafeL q (List.mem_cons_of_mem _ hq) k2 hk2 hc)

/-- The async-pre-pass fold establishes the entry of every async unit whose
block occurs in the processed list. -/
theorem raf_establishP (hub : List (String × JVal)) (p k : String)
    (b : JVal) (hb : alookup hub p = some b)
    (hk : k ∈ strKeys (fieldsOf b))
    (hasync : isAsyncItem ((alookup (fieldsOf b) (.str k)).getD .undefv)
      = true)
    (L : List String) (st : Wstate) (hL : p ∈ L)
    (hsafeL : ∀ p2 ∈ L,
      ∀ k2 ∈ strKeys (fieldsOf ((alookup hub p2).getD .undefv)),
        fqKey p2 k2 = fqKey p k → p2 = p ∧ k2 = k) :
    ∃ wid,
      alookup (L.foldl (rafStep hub) st).wireC p = some wid ∧
      alookup (L.foldl (rafStep hub) st).unitC (fqKey p k)
        = some (.factRes
          (asyncFid ((alookup (fieldsOf b) (.str k)).getD .undefv)) wid) := by
  revert hL hsafeL
  induction L generalizing st with
  | nil =>
    intro hL _
    cases hL
  | cons p2 rest ih =>
    intro hL hsafeL
    rw [List.foldl_cons]
    by_cases hpp : p2 = p
    · subst hpp
      have hstep : rafStep hub st p2
          = resolveAsyncBlock p2 b (strKeys (fieldsOf b)) st := by
        simp [rafStep, hb]
      rw [hstep]
      obtain ⟨wid, hW1, hU1⟩ := rab_establish p2 k b _ st hk hasync
      exact ⟨wid, raf_pres hub p2 k wid b hb rest _ hW1 hU1
        (fun q hq k2 hk2 hc => hsafeL q (List.mem_cons_of_mem _ hq) k2 hk2 hc)⟩
    · rcases List.mem_cons.mp hL with rfl | hmem
      · exact absurd rfl hpp
      · exact ih _ hmem
          (fun q hq k2 hk2 hc => hsafeL q (List.mem_cons_of_mem _ hq) k2 hk2 hc)

/-- An async entry is never the bare `unitSymbol` value. -/
theorem isAsyncItem_not_unitSymbol {v : JVal} (h : isAsyncItem v = true) :
    getBlockUnitKeys.isUnitSymbolVal v = false := by
  cases v with
  | symv s =>
    exfalso
    simp [isAsyncItem, isFunction, isAsyncFactoryFunc, isAsyncFactoryDef,
      isUnitDef] at h
  | _ => rfl

/-- A block's own non-block, non-tag, non-symbol entry is among the local
proxy's unit keys. -/
theorem mem_getBlockUnitKeys_local {b : JVal} {k : String}
    (hk : k ∈ strKeys (fieldsOf b)) (hkd : k ≠ "$")
    (hnb : itemIsBlock ((alookup (fieldsOf b) (.str k)).getD .undefv)
      = false)
    (hns : getBlockUnitKeys.isUnitSymbolVal
      ((alookup (fieldsOf b) (.str k)).getD .undefv) = false) :
    k ∈ getBlockUnitKeys b true := by
  rw [getBlockUnitKeys]
  refine List.mem_filter.mpr ⟨hk, ?_⟩
  simp [hkd, hnb, hns]

/-- `proxyGet` on a unit-cache hit: returns the cached value, touches only
the proxy target, and in particular performs no invocation (the call log
is unchanged). -/
theorem proxyGet_cacheHit (st : Wstate) (pid : Nat) (prop : String)
    (p : ProxyObj) (v : RVal)
    (hp : alookup st.heap pid = some p)
    (htgt : alookup p.tgt prop = none)
    (huk : p.unitKeys.contains prop = true)
    (hu : alookup st.unitC (fqKey p.blockPath prop) = some v) :
    proxyGet st pid prop = .ok (v,
      { st with
        heap := aset st.heap pid { p with tgt := aset p.tgt prop v } }) := by
  rw [proxyGet, hp]
  simp only [htgt, huk, if_true, hu]

/-- Calling a wire with `"."` in a session whose proxy caches miss: a
fresh local proxy (including private units) is allocated and cached. -/
theorem wireCall_local_fresh (st : Wstate) (p : String) (b : JVal)
    (hpc : alookup st.proxyC "." = none)
    (hlc : alookup st.localC p = none)
    (hhub : alookup st.hub p = some b) :
    wireCall st p "." = .ok (st.nextId,
      { st with
        heap := aset st.heap st.nextId ⟨p, true, getBlockUnitKeys b true, []⟩,
        nextId := st.nextId + 1,
        localC := aset st.localC p st.nextId }) := by
  rw [wireCall, hpc]
  simp only [reduceIte]
  rw [hlc, createBlockProxy, hhub]
  rfl

/-- Claim C4: async gating.  When `wireUp` returns a promise, then for
every asyncFactory unit `k` of the block at hub path `p` (whether encoded
as an async-factory-marked function or as an async `defineUnit` wrapper),
the final state already holds, in the session unit cache under the fully
qualified key, the awaited result of invoking that unit's body with the
owning block's memoized wire — before any consumer observes the wire.
Consequently, reading `k` through the owning block's (local) proxy
afterwards returns that resolved value synchronously from the unit cache,
and the call log is unchanged: the factory is not invoked again.
Hypotheses: `k` is not the tag key, the entry is not block-tagged, and
fully-qualified keys do not collide across the hub (true of every tree
whose keys contain no dots). -/
theorem asyncGating (defs : JVal) (w : Nat) (stf : Wstate)
    (hrun : wireUp defs = .prom w stf)
    (p k : String) (b : JVal)
    (hb : alookup (buildHub defs) p = some b)
    (hk : k ∈ strKeys (fieldsOf b))
    (hasync : isAsyncItem ((alookup (fieldsOf b) (.str k)).getD .undefv)
      = true)
    (hkd : k ≠ "$")
    (hnb : itemIsBlock ((alookup (fieldsOf b) (.str k)).getD .undefv)
      = false)
    (hinj : ∀ p1 ∈ (buildHub defs).map Prod.fst,
      ∀ k1 ∈ strKeys (fieldsOf ((alookup (buildHub defs) p1).getD .undefv)),
        fqKey p1 k1 = fqKey p k → p1 = p ∧ k1 = k) :
    ∃ wid,
      alookup stf.wireC p = some wid ∧
      alookup stf.unitC (fqKey p k)
        = some (.factRes
          (asyncFid ((alookup (fieldsOf b) (.str k)).getD .undefv)) wid) ∧
      ∃ pid st1 st2,
        wireCall stf p "." = .ok (pid, st1) ∧
        proxyGet st1 pid k = .ok (.factRes
          (asyncFid ((alookup (fieldsOf b) (.str k)).getD .undefv)) wid,
          st2) ∧
        st2.calls = st1.calls := by
  -- decompose the bootstrap
  by_cases ha : hasAsyncKeys (buildHub defs) = true
  case neg =>
    rw [wireUp] at hrun
    simp only [ha, Bool.false_eq_true, if_false] at hrun
    cases hrun
  case pos =>
  rw [wireUp] at hrun
  simp only [ha, if_true] at hrun
  rcases hg : getWire (resolveAsyncFactories (initState (buildHub defs))) ""
    with ⟨w2, s2⟩
  rw [hg] at hrun
  rw [WireUpRes.prom.injEq] at hrun
  obtain ⟨rfl, rfl⟩ := hrun
  -- the pre-pass establishes the entry
  have hfold : resolveAsyncFactories (initState (buildHub defs))
      = ((buildHub defs).map Prod.fst).foldl (rafStep (buildHub defs))
          (initState (buildHub defs)) := rfl
  have hL : p ∈ (buildHub defs).map Prod.fst := mem_map_fst_of_alookup hb
  obtain ⟨wid, hW1, hU1⟩ := raf_establishP (buildHub defs) p k b hb hk hasync
    ((buildHub defs).map Prod.fst) (initState (buildHub defs)) hL hinj
  rw [← hfold] at hW1 hU1
  -- transport through the final getWire
  have hWf : alookup s2.wireC p = some wid := by
    have := getWire_pres_wireC hW1 ""
    rwa [hg] at this
  have hs2 :
      s2.unitC = (resolveAsyncFactories (initState (buildHub defs))).unitC
      ∧ s2.hub = (resolveAsyncFactories (initState (buildHub defs))).hub
      ∧ s2.proxyC = (resolveAsyncFactories (initState (buildHub defs))).proxyC
      ∧ s2.localC = (resolveAsyncFactories (initState (buildHub defs))).localC
      ∧ s2.heap = (resolveAsyncFactories (initState (buildHub defs))).heap := by
    refine ⟨?_, ?_, ?_, ?_, ?_⟩ <;>
      [have := getWire_unitC (resolveAsyncFactories (initState (buildHub defs))) "";
       have := getWire_hub (resolveAsyncFactories (initState (buildHub defs))) "";
       have := getWire_proxyC (resolveAsyncFactories (initState (buildHub defs))) "";
       have := getWire_localC (resolveAsyncFactories (initState (buildHub defs))) "";
       have := getWire_heap (resolveAsyncFactories (initState (buildHub defs))) ""] <;>
      rwa [hg] at this
  obtain ⟨hs2u, hs2h, hs2p, hs2l, hs2heap⟩ := hs2
  have hframe := raf_frame (buildHub defs)
    ((buildHub defs).map Prod.fst) (initState (buildHub defs))
  rw [← hfold] at hframe
  have hUf : alookup s2.unitC (fqKey p k)
      = some (.factRes
        (asyncFid ((alookup (fieldsOf b) (.str k)).getD .undefv)) wid) := by
    rw [hs2u]; exact hU1
  have hhub : alookup s2.hub p = some b := by
    rw [hs2h, hframe.1]; exact hb
  have hpcEmpty : s2.proxyC = [] := by rw [hs2p, hframe.2.1]; rfl
  have hlcEmpty : s2.localC = [] := by rw [hs2l, hframe.2.2.1]; rfl
  have hheapEmpty : s2.heap = [] := by rw [hs2heap, hframe.2.2.2]; rfl
  refine ⟨wid, hWf, hUf, s2.nextId,
    { s2 with
      heap := aset s2.heap s2.nextId ⟨p, true, getBlockUnitKeys b true, []⟩,
      nextId := s2.nextId + 1,
      localC := aset s2.localC p s2.nextId },
    { s2 with
      heap := aset (aset s2.heap s2.nextId
          ⟨p, true, getBlockUnitKeys b true, []⟩) s2.nextId
        ⟨p, true, getBlockUnitKeys b true,
          aset ([] : List (String × RVal)) k (.factRes
            (asyncFid ((alookup (fieldsOf b) (.str k)).getD .undefv)) wid)⟩,
      nextId := s2.nextId + 1,
      localC := aset s2.localC p s2.nextId },
    ?_, ?_, rfl⟩
  · exact wireCall_local_fresh s2 p b
      (by rw [hpcEmpty]; exact alookup_nil _)
      (by rw [hlcEmpty]; exact alookup_nil _) hhub
  · refine proxyGet_cacheHit _ s2.nextId k
      ⟨p, true, getBlockUnitKeys b true, []⟩ _ (alookup_aset_self ..)
      (alookup_nil _) ?_ hUf
    exact List.elem_eq_true_of_mem
      (mem_getBlockUnitKeys_local hk hkd hnb (isAsyncItem_not_unitSymbol hasync))

/-- Witness for C4 at a concrete session: `wireUp(c4Defs)` returns a
promise; in the final state the async unit `af` (body id 20) is resolved
in the unit cache against the root block's wire, and reading it through
the root's local proxy returns it from the cache without any further
invocation. -/
theorem asyncGating_witness :
    ∃ wid,
      alookup c4Stf.wireC "" = some wid ∧
      alookup c4Stf.unitC (fqKey "" "af")
        = some (.factRes (asyncFid c4AsyncFn) wid) ∧
      ∃ pid st1 st2,
        wireCall c4Stf "" "." = .ok (pid, st1) ∧
        proxyGet st1 pid "af"
          = .ok (.factRes (asyncFid c4AsyncFn) wid, st2) ∧
        st2.calls = st1.calls :=
  asyncGating c4Defs 0 c4Stf rfl "" "af" c4Root rfl (by decide) rfl
    (by decide) rfl (by decide)

theorem mem_aset_keys {κ α : Type} [DecidableEq κ]
    {m : List (κ × α)} {k k' : κ} {v : α} :
    k' ∈ (aset m k v).map Prod.fst ↔ k' = k ∨ k' ∈ m.map Prod.fst := by
  induction m with
  | nil => simp [aset]
  | cons hd t ih =>
    obtain ⟨k0, v0⟩ := hd
    by_cases h : k0 = k
    · subst h
      rw [aset, if_pos rfl]
      simp only [List.map_cons, List.mem_cons]
      tauto
    · rw [aset, if_neg h]
      simp only [List.map_cons, List.mem_cons, ih]
      tauto

theorem nodup_aset_keys {κ α : Type} [DecidableEq κ]
    {m : List (κ × α)} (k : κ) (v : α)
    (h : (m.map Prod.fst).Nodup) : ((aset m k v).map Prod.fst).Nodup := by
  induction m with
  | nil => simp [aset]
  | cons hd t ih =>
    obtain ⟨k0, v0⟩ := hd
    simp only [List.map_cons, List.nodup_cons] at h
    by_cases hk : k0 = k
    · subst hk
      rw [aset, if_pos rfl]
      simp only [List.map_cons, List.nodup_cons]
      exact h
    · rw [aset, if_neg hk]
      simp only [List.map_cons, List.nodup_cons, mem_aset_keys]
      refine ⟨fun hc => ?_, ih h.2⟩
      rcases hc with rfl | hc
      · exact hk rfl
      · exact h.1 hc

theorem nodup_oassign_keys {κ α : Type} [DecidableEq κ]
    {m : List (κ × α)} (d : List (κ × α))
    (h : (m.map Prod.fst).Nodup) :
    ((oassign m d).map Prod.fst).Nodup := by
  induction d generalizing m with
  | nil => exact h
  | cons hd t ih =>
    rw [oassign, List.foldl_cons]
    exact ih (nodup_aset_keys _ _ h)

theorem alookup_eq_none_of_not_mem {κ α : Type} [DecidableEq κ]
    {m : List (κ × α)} {k : κ} (h : k ∉ m.map Prod.fst) :
    alookup m k = none := by
  induction m with
  | nil => rfl
  | cons hd t ih =>
    obtain ⟨k0, v0⟩ := hd
    simp only [List.map_cons, List.mem_cons] at h
    push_neg at h
    rw [alookup, if_neg (fun e => h.1 e.symm)]
    exact ih h.2

/-- `Object.assign` with a duplicate-free delta: the delta's bindings win,
everything else falls through to the base. -/
theorem oassign_alookup {κ α : Type} [DecidableEq κ]
    (m d : List (κ × α)) (q : κ) (hnd : (d.map Prod.fst).Nodup) :
    alookup (oassign m d) q
      = match alookup d q with
        | some v => some v
        | none => alookup m q := by
  induction d generalizing m with
  | nil => rfl
  | cons hd t ih =>
    obtain ⟨k0, v0⟩ := hd
    simp only [List.map_cons, List.nodup_cons] at hnd
    rw [oassign, List.foldl_cons]
    have step : List.foldl (fun acc kv => aset acc kv.1 kv.2)
        (aset m k0 v0) t = oassign (aset m k0 v0) t := rfl
    rw [step, ih _ hnd.2]
    by_cases hq : k0 = q
    · subst hq
      have hnone : alookup t k0 = none :=
        alookup_eq_none_of_not_mem hnd.1
      rw [hnone]
      simp [alookup, alookup_aset_self]
    · rw [alookup, if_neg hq]
      cases alookup t q with
      | some v => rfl
      | none => simp [alookup_aset_ne _ _ _ _ hq]

/-! ## C8: the flattening postcondition -/

theorem mem_oassign_keys {κ α : Type} [DecidableEq κ]
    {m d : List (κ × α)} {q : κ} :
    q ∈ (oassign m d).map Prod.fst ↔
      q ∈ m.map Prod.fst ∨ q ∈ d.map Prod.fst := by
  induction d generalizing m with
  | nil => simp [oassign]
  | cons hd t ih =>
    obtain ⟨k0, v0⟩ := hd
    rw [oassign, List.foldl_cons]
    have step : List.foldl (fun acc kv => aset acc kv.1 kv.2)
        (aset m k0 v0) t = oassign (aset m k0 v0) t := rfl
    rw [step, ih]
    simp only [mem_aset_keys, List.map_cons, List.mem_cons]
    tauto

theorem oassign_alookup_not_mem {κ α : Type} [DecidableEq κ]
    {m d : List (κ × α)} {q : κ} (h : q ∉ d.map Prod.fst) :
    alookup (oassign m d) q = alookup m q := by
  induction d generalizing m with
  | nil => rfl
  | cons hd t ih =>
    obtain ⟨k0, v0⟩ := hd
    simp only [List.map_cons, List.mem_cons] at h
    push_neg at h
    rw [oassign, List.foldl_cons]
    have step : List.foldl (fun acc kv => aset acc kv.1 kv.2)
        (aset m k0 v0) t = oassign (aset m k0 v0) t := rfl
    rw [step, ih h.2]
    exact alookup_aset_ne m k0 q v0 (fun e => h.1 e.symm)

theorem listSplitDot {l1 l2 m1 m2 : List Char}
    (h1 : '.' ∉ l1) (h2 : '.' ∉ l2)
    (h : l1 ++ '.' :: m1 = l2 ++ '.' :: m2) : l1 = l2 ∧ m1 = m2 := by
  induction l1 generalizing l2 with
  | nil =>
    cases l2 with
    | nil => simpa using h
    | cons c t =>
      simp only [List.nil_append, List.cons_append, List.cons.injEq] at h
      exact absurd (h.1 ▸ List.mem_cons_self c t) h2
  | cons c t ih =>
    cases l2 with
    | nil =>
      simp only [List.cons_append, List.nil_append, List.cons.injEq] at h
      exact absurd (h.1 ▸ List.mem_cons_self c t) h1
    | cons c2 t2 =>
      simp only [List.cons_append, List.cons.injEq] at h
      obtain ⟨rfl, h2'⟩ := h
      have hr := ih (fun hm => h1 (List.mem_cons_of_mem _ hm))
        (fun hm => h2 (List.mem_cons_of_mem _ hm)) h2'
      exact ⟨by rw [hr.1], hr.2⟩

theorem goodKey_spec {s : String} (h : goodKey s = true) :
    s ≠ "" ∧ '.' ∉ s.data := by
  unfold goodKey at h
  simp only [Bool.and_eq_true, Bool.not_eq_true'] at h
  refine ⟨of_decide_eq_false h.1, fun hm => ?_⟩
  have : s.data.contains '.' = true := by simpa using hm
  rw [this] at h
  exact Bool.noConfusion h.2

theorem string_split {k1 k2 r1 r2 : String}
    (h1 : '.' ∉ k1.data) (h2 : '.' ∉ k2.data)
    (h : k1 ++ "." ++ r1 = k2 ++ "." ++ r2) : k1 = k2 ∧ r1 = r2 := by
  have hd := congrArg String.data h
  have hdot : ("." : String).data = ['.'] := rfl
  simp only [String.data_append, hdot, List.append_assoc,
    List.singleton_append] at hd
  have hr := listSplitDot h1 h2 hd
  refine ⟨?_, ?_⟩
  · cases k1; cases k2; exact congrArg String.mk hr.1
  · cases r1; cases r2; exact congrArg String.mk hr.2

theorem dotfree_ne_dotted {k1 k2 r : String} (h1 : '.' ∉ k1.data) :
    k1 ≠ k2 ++ "." ++ r := by
  intro he
  apply h1
  rw [he]
  have hdot : ("." : String).data = ['.'] := rfl
  simp [String.data_append, hdot]

theorem dotted_ne_empty {a b : String} : a ++ "." ++ b ≠ "" := by
  intro he
  have hd := congrArg String.data he
  have hdot : ("." : String).data = ['.'] := rfl
  have hnil : ("" : String).data = [] := rfl
  simp only [String.data_append, hdot, hnil, List.append_assoc,
    List.singleton_append] at hd
  exact absurd hd (by simp)

theorem fqKey_ne_empty {p k : String} (hk : k ≠ "") : fqKey p k ≠ "" := by
  unfold fqKey
  by_cases hp : p = ""
  · simpa [hp] using hk
  · simp only [hp, if_false]
    exact dotted_ne_empty

theorem fqKey_assoc {p k r : String} (hk : k ≠ "") :
    fqKey (fqKey p k) r = fqKey p (k ++ "." ++ r) := by
  unfold fqKey
  by_cases hp : p = ""
  · simp [hp, hk]
  · simp only [hp, if_false, String.append_assoc]
    rw [if_neg (by rw [← String.append_assoc]; exact dotted_ne_empty)]

theorem self_ne_fqKey_self {a r : String} (ha : a ≠ "") : a ≠ fqKey a r := by
  unfold fqKey
  simp only [ha, if_false]
  intro he
  have hd := congrArg String.data he
  have hdot : ("." : String).data = ['.'] := rfl
  simp only [String.data_append, hdot, List.append_assoc,
    List.singleton_append] at hd
  have := congrArg List.length hd
  simp at this

theorem strKeys_append (A B : List (JKey × JVal)) :
    strKeys (A ++ B) = strKeys A ++ strKeys B := by
  induction A with
  | nil => rfl
  | cons hd rest ih =>
    obtain ⟨hk, hv⟩ := hd
    cases hk with
    | str s => simp [strKeys, ih]
    | sym s => simp [strKeys, ih]

theorem wfFields_append {A B : List (JKey × JVal)}
    (ha : wfFields A = true) (hb : wfFields B = true) :
    wfFields (A ++ B) = true := by
  induction A with
  | nil => exact hb
  | cons hd rest ih =>
    obtain ⟨hk, hv⟩ := hd
    cases hk with
    | str s =>
      simp only [wfFields, Bool.and_eq_true] at ha
      simp only [List.cons_append, wfFields, Bool.and_eq_true]
      exact ⟨ha.1, ih ha.2⟩
    | sym s =>
      simp only [wfFields] at ha
      simp only [List.cons_append, wfFields]
      exact ih ha

theorem wfFields_mem {fields : List (JKey × JVal)} {k : String} {v : JVal}
    (hwf : wfFields fields = true) (hm : (JKey.str k, v) ∈ fields) :
    goodKey k = true ∧ wfTree v = true := by
  induction fields with
  | nil => cases hm
  | cons hd rest ih =>
    obtain ⟨hk, hv⟩ := hd
    cases hk with
    | str s =>
      simp only [wfFields, Bool.and_eq_true] at hwf
      rcases List.mem_cons.mp hm with he | hm2
      · simp only [Prod.mk.injEq, JKey.str.injEq] at he
        obtain ⟨rfl, rfl⟩ := he
        exact hwf.1
      · exact ih hwf.2 hm2
    | sym s =>
      simp only [wfFields] at hwf
      rcases List.mem_cons.mp hm with he | hm2
      · simp at he
      · exact ih hwf hm2

theorem mem_strKeys_of_alookup {fields : List (JKey × JVal)} {k : String}
    {v : JVal} (h : alookup fields (.str k) = some v) :
    k ∈ strKeys fields := by
  induction fields with
  | nil => cases h
  | cons hd rest ih =>
    obtain ⟨hk, hv⟩ := hd
    cases hk with
    | str s =>
      by_cases he : s = k
      · subst he
        simp [strKeys]
      · rw [alookup, if_neg (by simp [he])] at h
        simp only [strKeys, List.mem_cons]
        exact Or.inr (ih h)
    | sym s =>
      rw [alookup, if_neg (by simp)] at h
      simp only [strKeys]
      exact ih h

theorem exists_alookup_of_mem_strKeys {fields : List (JKey × JVal)}
    {k : String} (h : k ∈ strKeys fields) :
    ∃ v, alookup fields (.str k) = some v := by
  induction fields with
  | nil => simp [strKeys] at h
  | cons hd rest ih =>
    obtain ⟨hk, hv⟩ := hd
    cases hk with
    | str s =>
      by_cases he : s = k
      · exact ⟨hv, by rw [alookup, if_pos (by simp [he])]⟩
      · simp only [strKeys, List.mem_cons] at h
        rcases h with h | h
        · exact absurd h.symm he
        · obtain ⟨v, hv2⟩ := ih h
          exact ⟨v, by rw [alookup, if_neg (by simp [he])]; exact hv2⟩
    | sym s =>
      simp only [strKeys] at h
      obtain ⟨v, hv2⟩ := ih h
      exact ⟨v, by rw [alookup, if_neg (by simp)]; exact hv2⟩

theorem alookup_mem {κ α : Type} [DecidableEq κ] {m : List (κ × α)}
    {k : κ} {v : α} (h : alookup m k = some v) : (k, v) ∈ m := by
  induction m with
  | nil => cases h
  | cons hd rest ih =>
    obtain ⟨k0, v0⟩ := hd
    by_cases he : k0 = k
    · rw [alookup, if_pos he] at h
      obtain rfl := he
      obtain rfl := Option.some.inj h
      exact List.mem_cons_self _ _
    · rw [alookup, if_neg he] at h
      exact List.mem_cons_of_mem _ (ih h)

theorem obj_of_itemIsBlock {v : JVal} (h : itemIsBlock v = true) :
    ∃ bf, v = .obj bf := by
  cases v <;> simp [itemIsBlock] at h ⊢

theorem wfTree_fields {t : JVal} (h : wfTree t = true) :
    nodupB (strKeys (fieldsOf t)) = true ∧ wfFields (fieldsOf t) = true := by
  cases t
  case obj fields => simpa [wfTree, Bool.and_eq_true] using h
  all_goals exact ⟨rfl, rfl⟩

theorem chain_cons_sym {rest : List (JKey × JVal)} {s : String} {v : JVal}
    {rel : String} {b : JVal} (h : Chain (.obj rest) rel b) :
    Chain (.obj ((.sym s, v) :: rest)) rel b := by
  cases h with
  | here hl hb =>
    refine Chain.here ?_ hb
    show alookup ((JKey.sym s, v) :: rest) (.str _) = some b
    rw [alookup, if_neg (by simp)]
    exact hl
  | there hl hb hc =>
    refine Chain.there ?_ hb hc
    show alookup ((JKey.sym s, v) :: rest) (.str _) = some _
    rw [alookup, if_neg (by simp)]
    exact hl

theorem chain_cons_str {rest : List (JKey × JVal)} {key : String} {w : JVal}
    {rel : String} {b : JVal} (h : Chain (.obj rest) rel b)
    (hfresh : (strKeys rest).contains key = false) :
    Chain (.obj ((.str key, w) :: rest)) rel b := by
  have hnm : key ∉ strKeys rest := by simpa using hfresh
  cases h with
  | here hl hb =>
    refine Chain.here ?_ hb
    show alookup ((JKey.str key, w) :: rest) (.str _) = some b
    have hne : key ≠ _ := fun he => hnm (he ▸ mem_strKeys_of_alookup hl)
    rw [alookup, if_neg (by simp [hne])]
    exact hl
  | there hl hb hc =>
    refine Chain.there ?_ hb hc
    show alookup ((JKey.str key, w) :: rest) (.str _) = some _
    have hne : key ≠ _ := fun he => hnm (he ▸ mem_strKeys_of_alookup hl)
    rw [alookup, if_neg (by simp [hne])]
    exact hl

theorem hasBlocks_of_chain {t : JVal} {rel : String} {b : JVal}
    (h : Chain t rel b) : hasBlocks t = true := by
  have hx : ∃ k m, alookup (fieldsOf t) (.str k) = some m ∧
      itemIsBlock m = true := by
    cases h with
    | here hl hb => exact ⟨_, _, hl, hb⟩
    | there hl hb _ => exact ⟨_, _, hl, hb⟩
  obtain ⟨k, m, hl, hb⟩ := hx
  unfold hasBlocks
  rw [List.any_eq_true]
  exact ⟨k, mem_strKeys_of_alookup hl, by simp [hl, hb]⟩

theorem chain_ne_empty {t : JVal} {rel : String} {b : JVal}
    (hwf : wfTree t = true) (h : Chain t rel b) : rel ≠ "" := by
  cases h with
  | here hl hb =>
    have hw := wfTree_fields hwf
    have hg := (wfFields_mem hw.2 (alookup_mem hl)).1
    exact (goodKey_spec hg).1
  | there hl hb hc => exact dotted_ne_empty

theorem chain_obj_fieldsOf {t : JVal} {rel : String} {b : JVal}
    (h : Chain t rel b) : Chain (.obj (fieldsOf t)) rel b := by
  cases h with
  | here hl hb => exact Chain.here hl hb
  | there hl hb hc => exact Chain.there hl hb hc

theorem chain_of_chain_fieldsOf {t : JVal} {rel : String} {b : JVal}
    (h : Chain (.obj (fieldsOf t)) rel b) : Chain t rel b := by
  cases h with
  | here hl hb => exact Chain.here hl hb
  | there hl hb hc => exact Chain.there hl hb hc

theorem mapBlocks_eq_go (t : JVal) (pre : String) :
    mapBlocks t pre = mapBlocksGo (fieldsOf t) pre [] := by
  cases t <;> simp [mapBlocks, fieldsOf, mapBlocksGo]

theorem mapBlocksGo_keys_nodup (fields : List (JKey × JVal)) (pre : String) :
    ∀ mapped : List (String × JVal), (mapped.map Prod.fst).Nodup →
    ((mapBlocksGo fields pre mapped).map Prod.fst).Nodup := by
  induction fields with
  | nil => intro mapped h; exact h
  | cons hd rest ih =>
    intro mapped h
    obtain ⟨hk, block⟩ := hd
    cases hk with
    | sym s =>
      simp only [mapBlocksGo]
      exact ih mapped h
    | str s =>
      by_cases hib : itemIsBlock block = true
      · simp only [mapBlocksGo, hib, if_true]
        apply ih
        by_cases hu : hasUnits block = true <;>
          by_cases hb : hasBlocks block = true <;>
            simp only [hu, hb, if_true, if_false]
        · exact nodup_oassign_keys _ (nodup_aset_keys _ _ h)
        · exact nodup_aset_keys _ _ h
        · exact nodup_oassign_keys _ h
        · exact h
      · simp only [mapBlocksGo, hib, if_false]
        exact ih mapped h

theorem alookup_cons_self {κ α : Type} [DecidableEq κ] (k : κ) (v : α)
    (rest : List (κ × α)) : alookup ((k, v) :: rest) k = some v := by
  simp [alookup]

theorem alookup_cons_ne {κ α : Type} [DecidableEq κ] {k0 k : κ} (v : α)
    (rest : List (κ × α)) (h : k0 ≠ k) :
    alookup ((k0, v) :: rest) k = alookup rest k := by
  simp [alookup, h]

theorem mem_strKeys_of_mem {fields : List (JKey × JVal)} {k : String}
    {v : JVal} (h : (JKey.str k, v) ∈ fields) : k ∈ strKeys fields := by
  induction fields with
  | nil => cases h
  | cons hd rest ih =>
    obtain ⟨hk, hv⟩ := hd
    cases hk with
    | str s =>
      simp only [strKeys, List.mem_cons]
      rcases List.mem_cons.mp h with he | hm
      · simp only [Prod.mk.injEq, JKey.str.injEq] at he
        exact Or.inl he.1
      · exact Or.inr (ih hm)
    | sym s =>
      simp only [strKeys]
      rcases List.mem_cons.mp h with he | hm
      · simp at he
      · exact ih hm

theorem oassign_alookup_cases {κ α : Type} [DecidableEq κ]
    {m d : List (κ × α)} {q : κ} {b : α}
    (hnd : (d.map Prod.fst).Nodup)
    (h : alookup (oassign m d) q = some b) :
    alookup d q = some b ∨ (alookup d q = none ∧ alookup m q = some b) := by
  rw [oassign_alookup m d q hnd] at h
  cases hdl : alookup d q with
  | some x =>
    rw [hdl] at h
    exact Or.inl (by simpa using h)
  | none =>
    rw [hdl] at h
    exact Or.inr ⟨rfl, by simpa using h⟩

theorem chain_uncons_sym {rest : List (JKey × JVal)} {s : String} {v : JVal}
    {rel : String} {b : JVal}
    (h : Chain (.obj ((JKey.sym s, v) :: rest)) rel b) :
    Chain (.obj rest) rel b := by
  cases h with
  | here hl hb =>
    simp only [fieldsOf] at hl
    rw [alookup_cons_ne _ _ (by simp)] at hl
    exact Chain.here hl hb
  | there hl hb hc =>
    simp only [fieldsOf] at hl
    rw [alookup_cons_ne _ _ (by simp)] at hl
    exact Chain.there hl hb hc

theorem chain_cons_str_cases {rest : List (JKey × JVal)} {key : String}
    {w : JVal} {rel : String} {b : JVal}
    (h : Chain (.obj ((JKey.str key, w) :: rest)) rel b) :
    (rel = key ∧ b = w ∧ itemIsBlock w = true)
    ∨ (∃ rel2, rel = key ++ "." ++ rel2 ∧ itemIsBlock w = true ∧
        Chain w rel2 b)
    ∨ Chain (.obj rest) rel b := by
  cases h with
  | here hl hb =>
    simp only [fieldsOf] at hl
    by_cases he : key = rel
    · subst he
      rw [alookup_cons_self] at hl
      obtain rfl := Option.some.inj hl
      exact Or.inl ⟨rfl, rfl, hb⟩
    · rw [alookup_cons_ne _ _ (by simp [he])] at hl
      exact Or.inr (Or.inr (Chain.here hl hb))
  | there hl hb hc =>
    rename_i k rel2 m
    simp only [fieldsOf] at hl
    by_cases he : key = k
    · subst he
      rw [alookup_cons_self] at hl
      obtain rfl := Option.some.inj hl
      exact Or.inr (Or.inl ⟨rel2, rfl, hb, hc⟩)
    · rw [alookup_cons_ne _ _ (by simp [he])] at hl
      exact Or.inr (Or.inr (Chain.there hl hb hc))

/-- Soundness of the flattening loop: every binding of the result map is
either inherited from the accumulator or records, under its prefixed
dot-joined relative path, a tagged block with direct units reached by a
chain of tagged blocks. -/
theorem mapBlocksGo_sound :
    ∀ n : Nat, ∀ fields : List (JKey × JVal), ∀ pre : String,
      ∀ mapped : List (String × JVal), ∀ q : String, ∀ b : JVal,
      sizeOf fields ≤ n →
      wfFields fields = true → nodupB (strKeys fields) = true →
      alookup (mapBlocksGo fields pre mapped) q = some b →
      (∃ rel, q = fqKey pre rel ∧ Chain (.obj fields) rel b ∧
          hasUnits b = true)
        ∨ alookup mapped q = some b := by
  intro n
  induction n using Nat.strong_induction_on with
  | _ n IH =>
  intro fields pre mapped q b hn hwf hnd hl
  cases fields with
  | nil =>
    simp only [mapBlocksGo] at hl
    exact Or.inr hl
  | cons hd rest =>
    obtain ⟨hk, block⟩ := hd
    simp only [List.cons.sizeOf_spec, Prod.mk.sizeOf_spec] at hn
    have hsr : sizeOf rest < n := by omega
    cases hk with
    | sym s =>
      simp only [mapBlocksGo] at hl
      simp only [wfFields] at hwf
      simp only [strKeys] at hnd
      rcases IH (sizeOf rest) hsr rest pre mapped q b le_rfl hwf hnd hl with
        ⟨rel, hq, hc, hu⟩ | hr
      · exact Or.inl ⟨rel, hq, chain_cons_sym hc, hu⟩
      · exact Or.inr hr
    | str s =>
      simp only [wfFields, Bool.and_eq_true] at hwf
      obtain ⟨⟨hgood, hwtb⟩, hwrest⟩ := hwf
      simp only [strKeys, nodupB, Bool.and_eq_true, Bool.not_eq_true'] at hnd
      obtain ⟨hfresh, hndrest⟩ := hnd
      by_cases hib : itemIsBlock block = true
      · obtain ⟨bfields, rfl⟩ := obj_of_itemIsBlock hib
        simp only [wfTree, Bool.and_eq_true] at hwtb
        obtain ⟨hndb, hwfb⟩ := hwtb
        simp only [JVal.obj.sizeOf_spec] at hn
        have hsb : sizeOf bfields < n := by omega
        have hne : s ≠ "" := (goodKey_spec hgood).1
        have hheadlook :
            alookup (fieldsOf (JVal.obj
              ((JKey.str s, JVal.obj bfields) :: rest))) (JKey.str s)
              = some (JVal.obj bfields) := by
          simp only [fieldsOf]
          exact alookup_cons_self _ _ _
        have haset : hasUnits (JVal.obj bfields) = true →
            alookup (aset mapped (fqKey pre s) (JVal.obj bfields)) q
              = some b →
            (∃ rel, q = fqKey pre rel ∧
                Chain (.obj ((JKey.str s, JVal.obj bfields) :: rest)) rel b ∧
                hasUnits b = true)
              ∨ alookup mapped q = some b := by
          intro hhu hr2
          rw [alookup_aset] at hr2
          by_cases hqe : fqKey pre s = q
          · rw [if_pos hqe] at hr2
            obtain rfl := Option.some.inj hr2
            exact Or.inl ⟨s, hqe.symm, Chain.here hheadlook hib, hhu⟩
          · rw [if_neg hqe] at hr2
            exact Or.inr hr2
        have hdelta : ∀ x,
            alookup (mapBlocks (JVal.obj bfields) (fqKey pre s)) q
              = some x →
            ∃ rel, q = fqKey pre rel ∧
              Chain (.obj ((JKey.str s, JVal.obj bfields) :: rest)) rel x ∧
              hasUnits x = true := by
          intro x hx
          rw [mapBlocks_eq_go] at hx
          simp only [fieldsOf] at hx
          rcases IH (sizeOf bfields) hsb bfields (fqKey pre s) [] q x
              le_rfl hwfb hndb hx with ⟨rel2, hq2, hc2, hu2⟩ | habs
          · refine ⟨s ++ "." ++ rel2, ?_, Chain.there hheadlook hib hc2, hu2⟩
            rw [hq2, fqKey_assoc hne]
          · simp [alookup] at habs
        have hnodupd :
            ((mapBlocks (JVal.obj bfields) (fqKey pre s)).map
              Prod.fst).Nodup := by
          rw [mapBlocks_eq_go]
          simp only [fieldsOf]
          exact mapBlocksGo_keys_nodup bfields (fqKey pre s) [] (by simp)
        by_cases hhu : hasUnits (JVal.obj bfields) = true <;>
          by_cases hhb : hasBlocks (JVal.obj bfields) = true
        · simp only [mapBlocksGo, hib, hhu, hhb, if_true] at hl
          rw [show (if pre = "" then s else pre ++ "." ++ s)
              = fqKey pre s from rfl] at hl
          rcases IH (sizeOf rest) hsr rest pre _ q b le_rfl hwrest hndrest
              hl with ⟨rel, hq, hc, hu⟩ | hr
          · exact Or.inl ⟨rel, hq, chain_cons_str hc hfresh, hu⟩
          · rcases oassign_alookup_cases hnodupd hr with hdl | ⟨-, hr2⟩
            · exact Or.inl (hdelta b hdl)
            · exact haset hhu hr2
        · simp only [mapBlocksGo, hib, hhu, hhb, if_true, if_false] at hl
          rw [show (if pre = "" then s else pre ++ "." ++ s)
              = fqKey pre s from rfl] at hl
          rcases IH (sizeOf rest) hsr rest pre _ q b le_rfl hwrest hndrest
              hl with ⟨rel, hq, hc, hu⟩ | hr
          · exact Or.inl ⟨rel, hq, chain_cons_str hc hfresh, hu⟩
          · exact haset hhu hr
        · simp only [mapBlocksGo, hib, hhu, hhb, if_true, if_false] at hl
          rw [show (if pre = "" then s else pre ++ "." ++ s)
              = fqKey pre s from rfl] at hl
          rcases IH (sizeOf rest) hsr rest pre _ q b le_rfl hwrest hndrest
              hl with ⟨rel, hq, hc, hu⟩ | hr
          · exact Or.inl ⟨rel, hq, chain_cons_str hc hfresh, hu⟩
          · rcases oassign_alookup_cases hnodupd hr with hdl | ⟨-, hr2⟩
            · exact Or.inl (hdelta b hdl)
            · exact Or.inr hr2
        · simp only [mapBlocksGo, hib, hhu, hhb, if_false] at hl
          rcases IH (sizeOf rest) hsr rest pre _ q b le_rfl hwrest hndrest
              hl with ⟨rel, hq, hc, hu⟩ | hr
          · exact Or.inl ⟨rel, hq, chain_cons_str hc hfresh, hu⟩
          · exact Or.inr hr
      · simp [mapBlocksGo, hib] at hl
        rcases IH (sizeOf rest) hsr rest pre mapped q b le_rfl hwrest
            hndrest hl with ⟨rel, hq, hc, hu⟩ | hr
        · exact Or.inl ⟨rel, hq, chain_cons_str hc hfresh, hu⟩
        · exact Or.inr hr

/-- Frame property of the flattening loop: a key that can be generated
neither by a direct entry of `fields` nor by any descendant of one is
untouched — its lookup falls through to the accumulator. -/
theorem mapBlocksGo_frame :
    ∀ fields : List (JKey × JVal), ∀ pre : String,
      ∀ mapped : List (String × JVal), ∀ q : String,
      wfFields fields = true →
      (∀ k v, (JKey.str k, v) ∈ fields → itemIsBlock v = true →
        q ≠ fqKey pre k ∧ ∀ r, q ≠ fqKey pre (k ++ "." ++ r)) →
      alookup (mapBlocksGo fields pre mapped) q = alookup mapped q := by
  intro fields
  induction fields with
  | nil =>
    intro pre mapped q hwf hq
    simp only [mapBlocksGo]
  | cons hd rest ih =>
    intro pre mapped q hwf hq
    obtain ⟨hk, block⟩ := hd
    cases hk with
    | sym s =>
      simp only [mapBlocksGo]
      simp only [wfFields] at hwf
      exact ih pre mapped q hwf
        (fun k v hm hb => hq k v (List.mem_cons_of_mem _ hm) hb)
    | str s =>
      simp only [wfFields, Bool.and_eq_true] at hwf
      obtain ⟨⟨hgood, hwtb⟩, hwrest⟩ := hwf
      have hqrest : ∀ k v, (JKey.str k, v) ∈ rest → itemIsBlock v = true →
          q ≠ fqKey pre k ∧ ∀ r, q ≠ fqKey pre (k ++ "." ++ r) :=
        fun k v hm hb => hq k v (List.mem_cons_of_mem _ hm) hb
      by_cases hib : itemIsBlock block = true
      · obtain ⟨bfields, rfl⟩ := obj_of_itemIsBlock hib
        simp only [wfTree, Bool.and_eq_true] at hwtb
        obtain ⟨hndb, hwfb⟩ := hwtb
        have hne : s ≠ "" := (goodKey_spec hgood).1
        have hqs := hq s (JVal.obj bfields) (List.mem_cons_self _ _) hib
        have hnotmem :
            q ∉ (mapBlocks (JVal.obj bfields) (fqKey pre s)).map
              Prod.fst := by
          intro hmem
          rw [mapBlocks_eq_go] at hmem
          simp only [fieldsOf] at hmem
          obtain ⟨x, hx⟩ := alookup_isSome_of_mem_fst hmem
          rcases mapBlocksGo_sound (sizeOf bfields) bfields (fqKey pre s)
              [] q x le_rfl hwfb hndb hx with ⟨rel2, hq2, _, _⟩ | habs
          · rw [fqKey_assoc hne] at hq2
            exact hqs.2 rel2 hq2
          · simp [alookup] at habs
        have hasetq :
            alookup (aset mapped (fqKey pre s) (JVal.obj bfields)) q
              = alookup mapped q :=
          alookup_aset_ne mapped (fqKey pre s) q _ (fun e => hqs.1 e.symm)
        by_cases hhu : hasUnits (JVal.obj bfields) = true <;>
          by_cases hhb : hasBlocks (JVal.obj bfields) = true
        · simp only [mapBlocksGo, hib, hhu, hhb, if_true]
          rw [show (if pre = "" then s else pre ++ "." ++ s)
              = fqKey pre s from rfl]
          rw [ih pre _ q hwrest hqrest]
          rw [oassign_alookup_not_mem hnotmem]
          exact hasetq
        · simp only [mapBlocksGo, hib, hhu, hhb, if_true, if_false]
          rw [show (if pre = "" then s else pre ++ "." ++ s)
              = fqKey pre s from rfl]
          rw [ih pre _ q hwrest hqrest]
          exact hasetq
        · simp only [mapBlocksGo, hib, hhu, hhb, if_true, if_false]
          rw [show (if pre = "" then s else pre ++ "." ++ s)
              = fqKey pre s from rfl]
          rw [ih pre _ q hwrest hqrest]
          exact oassign_alookup_not_mem hnotmem
        · simp only [mapBlocksGo, hib, hhu, hhb, if_false]
          exact ih pre mapped q hwrest hqrest
      · simp [mapBlocksGo, hib]
        exact ih pre mapped q hwrest hqrest

/-- Completeness of the flattening loop: every tagged block reachable by a
chain of tagged blocks and owning at least one direct unit is recorded
under its prefixed dot-joined path, mapped to its own definition. -/
theorem mapBlocksGo_complete :
    ∀ n : Nat, ∀ fields : List (JKey × JVal), ∀ pre : String,
      ∀ mapped : List (String × JVal), ∀ rel : String, ∀ b : JVal,
      sizeOf fields ≤ n →
      wfFields fields = true → nodupB (strKeys fields) = true →
      Chain (.obj fields) rel b → hasUnits b = true →
      alookup (mapBlocksGo fields pre mapped) (fqKey pre rel) = some b := by
  intro n
  induction n using Nat.strong_induction_on with
  | _ n IH =>
  intro fields pre mapped rel b hn hwf hnd hc hu
  cases fields with
  | nil =>
    cases hc with
    | here hl hb => simp [fieldsOf, alookup] at hl
    | there hl hb hc2 => simp [fieldsOf, alookup] at hl
  | cons hd rest =>
    obtain ⟨hk, block⟩ := hd
    simp only [List.cons.sizeOf_spec, Prod.mk.sizeOf_spec] at hn
    have hsr : sizeOf rest < n := by omega
    cases hk with
    | sym s =>
      simp only [mapBlocksGo]
      simp only [wfFields] at hwf
      simp only [strKeys] at hnd
      exact IH (sizeOf rest) hsr rest pre mapped rel b le_rfl hwf hnd
        (chain_uncons_sym hc) hu
    | str s =>
      simp only [wfFields, Bool.and_eq_true] at hwf
      obtain ⟨⟨hgood, hwtb⟩, hwrest⟩ := hwf
      simp only [strKeys, nodupB, Bool.and_eq_true, Bool.not_eq_true'] at hnd
      obtain ⟨hfresh, hndrest⟩ := hnd
      have hne : s ≠ "" := (goodKey_spec hgood).1
      have hdotfree : '.' ∉ s.data := (goodKey_spec hgood).2
      have hnmem : s ∉ strKeys rest := by simpa using hfresh
      rcases chain_cons_str_cases hc with ⟨hrel, rfl, hib⟩ |
        ⟨rel2, hrel, hib, hc2⟩ | hcr
      · rw [hrel]
        obtain ⟨bfields, rfl⟩ := obj_of_itemIsBlock hib
        simp only [wfTree, Bool.and_eq_true] at hwtb
        obtain ⟨hndb, hwfb⟩ := hwtb
        have hframe : ∀ k v, (JKey.str k, v) ∈ rest →
            itemIsBlock v = true →
            fqKey pre s ≠ fqKey pre k ∧
              ∀ r, fqKey pre s ≠ fqKey pre (k ++ "." ++ r) := by
          intro k v hm hb
          have hks : s ≠ k := fun e => hnmem (e ▸ mem_strKeys_of_mem hm)
          constructor
          · exact fun he => hks (fqKey_inj_right he)
          · exact fun r he => dotfree_ne_dotted hdotfree (fqKey_inj_right he)
        have hnotmem :
            fqKey pre s ∉ (mapBlocks (JVal.obj bfields)
              (fqKey pre s)).map Prod.fst := by
          intro hmem
          rw [mapBlocks_eq_go] at hmem
          simp only [fieldsOf] at hmem
          obtain ⟨x, hx⟩ := alookup_isSome_of_mem_fst hmem
          rcases mapBlocksGo_sound (sizeOf bfields) bfields (fqKey pre s)
              [] _ x le_rfl hwfb hndb hx with ⟨rel2, hq2, _, _⟩ | habs
          · exact self_ne_fqKey_self (fqKey_ne_empty hne) hq2
          · simp [alookup] at habs
        by_cases hhb : hasBlocks (JVal.obj bfields) = true
        · simp only [mapBlocksGo, hib, hu, hhb, if_true]
          rw [show (if pre = "" then s else pre ++ "." ++ s)
              = fqKey pre s from rfl]
          rw [mapBlocksGo_frame rest pre _ _ hwrest hframe]
          rw [oassign_alookup_not_mem hnotmem]
          exact alookup_aset_self mapped (fqKey pre s) _
        · simp only [mapBlocksGo, hib, hu, hhb, if_true, if_false]
          rw [show (if pre = "" then s else pre ++ "." ++ s)
              = fqKey pre s from rfl]
          rw [mapBlocksGo_frame rest pre _ _ hwrest hframe]
          exact alookup_aset_self mapped (fqKey pre s) _
      · rw [hrel]
        obtain ⟨bfields, rfl⟩ := obj_of_itemIsBlock hib
        simp only [wfTree, Bool.and_eq_true] at hwtb
        obtain ⟨hndb, hwfb⟩ := hwtb
        simp only [JVal.obj.sizeOf_spec] at hn
        have hsb : sizeOf bfields < n := by omega
        have hhb : hasBlocks (JVal.obj bfields) = true :=
          hasBlocks_of_chain hc2
        have hframe : ∀ k v, (JKey.str k, v) ∈ rest →
            itemIsBlock v = true →
            fqKey pre (s ++ "." ++ rel2) ≠ fqKey pre k ∧
              ∀ r, fqKey pre (s ++ "." ++ rel2) ≠
                fqKey pre (k ++ "." ++ r) := by
          intro k v hm hb
          have hgk := (wfFields_mem hwrest hm).1
          have hks : s ≠ k := fun e => hnmem (e ▸ mem_strKeys_of_mem hm)
          constructor
          · intro he
            exact dotfree_ne_dotted (goodKey_spec hgk).2
              (fqKey_inj_right he).symm
          · intro r he
            exact hks (string_split hdotfree (goodKey_spec hgk).2
              (fqKey_inj_right he)).1
        have hnodupd :
            ((mapBlocks (JVal.obj bfields) (fqKey pre s)).map
              Prod.fst).Nodup := by
          rw [mapBlocks_eq_go]
          simp only [fieldsOf]
          exact mapBlocksGo_keys_nodup bfields (fqKey pre s) [] (by simp)
        have hinner :
            alookup (mapBlocks (JVal.obj bfields) (fqKey pre s))
              (fqKey pre (s ++ "." ++ rel2)) = some b := by
          rw [mapBlocks_eq_go]
          simp only [fieldsOf]
          rw [← fqKey_assoc hne]
          exact IH (sizeOf bfields) hsb bfields (fqKey pre s) [] rel2 b
            le_rfl hwfb hndb hc2 hu
        have hoas : ∀ m1 : List (String × JVal),
            alookup (oassign m1 (mapBlocks (JVal.obj bfields)
              (fqKey pre s))) (fqKey pre (s ++ "." ++ rel2)) = some b := by
          intro m1
          rw [oassign_alookup _ _ _ hnodupd, hinner]
        by_cases hhu : hasUnits (JVal.obj bfields) = true
        · simp only [mapBlocksGo, hib, hhu, hhb, if_true]
          rw [show (if pre = "" then s else pre ++ "." ++ s)
              = fqKey pre s from rfl]
          rw [mapBlocksGo_frame rest pre _ _ hwrest hframe]
          exact hoas _
        · simp only [mapBlocksGo, hib, hhu, hhb, if_true, if_false]
          rw [show (if pre = "" then s else pre ++ "." ++ s)
              = fqKey pre s from rfl]
          rw [mapBlocksGo_frame rest pre _ _ hwrest hframe]
          exact hoas _
      · by_cases hib : itemIsBlock block = true
        · by_cases hhu : hasUnits block = true <;>
            by_cases hhb : hasBlocks block = true <;>
              simp only [mapBlocksGo, hib, hhu, hhb, if_true, if_false] <;>
              exact IH (sizeOf rest) hsr rest pre _ rel b le_rfl hwrest
                hndrest hcr hu
        · simp [mapBlocksGo, hib]
          exact IH (sizeOf rest) hsr rest pre mapped rel b le_rfl hwrest
            hndrest hcr hu

theorem nodupB_iff {ks : List String} : nodupB ks = true ↔ ks.Nodup := by
  induction ks with
  | nil => simp [nodupB]
  | cons a t ih =>
    simp [nodupB, Bool.and_eq_true, Bool.not_eq_true', ih, List.nodup_cons]

theorem wfTree_ensureTagged {defs : JVal} (h : wfTree defs = true) :
    wfTree (ensureTagged defs) = true := by
  cases defs
  case obj fields =>
    simp only [ensureTagged]
    by_cases hs : (alookup fields (JKey.str "$")).isSome
    · simpa [hs] using h
    · rw [if_neg hs]
      simp only [wfTree, Bool.and_eq_true] at h ⊢
      refine ⟨?_, wfFields_append h.2 (by rfl)⟩
      rw [strKeys_append,
        show strKeys [(JKey.str "$", blockTag)] = ["$"] from rfl,
        nodupB_iff, List.nodup_append]
      refine ⟨nodupB_iff.mp h.1, by simp, ?_⟩
      intro a ha hb
      rw [show a ∈ ["$"] ↔ a = "$" from by simp] at hb
      subst hb
      obtain ⟨v, hv⟩ := exists_alookup_of_mem_strKeys ha
      rw [hv] at hs
      exact hs rfl
  all_goals simpa [ensureTagged] using h

/-- Claim C8: flattening postcondition.  Over any well-formed definition
tree (duplicate-free, non-empty, dot-free keys — true of JS objects keyed
by identifiers), the flat hub built by `wireUp` (`mapBlocks` plus the root
entry) satisfies: (1) the root tree is always recorded under the
empty-string path; (2) every tagged block reached by descending through
tagged sub-blocks — regardless of whether the intermediate blocks own
units — that owns at least one direct non-block unit entry is recorded
under its dot-joined path, mapped to its own definition object; and
(3) conversely every non-root entry of the hub is such a block, so a block
owning only sub-blocks and no direct units gets no entry of its own while
its qualifying descendants are still recorded. -/
theorem flatteningPostcondition (defs : JVal) (hwf : wfTree defs = true) :
    alookup (buildHub defs) "" = some (ensureTagged defs)
    ∧ (∀ rel b, Chain (ensureTagged defs) rel b → hasUnits b = true →
        alookup (buildHub defs) rel = some b)
    ∧ (∀ q b, q ≠ "" → alookup (buildHub defs) q = some b →
        Chain (ensureTagged defs) q b ∧ hasUnits b = true) := by
  have hwf2 : wfTree (ensureTagged defs) = true := wfTree_ensureTagged hwf
  have hwff := wfTree_fields hwf2
  refine ⟨?_, ?_, ?_⟩
  · simp only [buildHub]
    exact alookup_aset_self _ _ _
  · intro rel b hc hu
    have hrne : rel ≠ "" := chain_ne_empty hwf2 hc
    simp only [buildHub]
    rw [alookup_aset_ne _ _ _ _ (fun e => hrne e.symm)]
    rw [mapBlocks_eq_go]
    have hres := mapBlocksGo_complete (sizeOf (fieldsOf (ensureTagged defs)))
      (fieldsOf (ensureTagged defs)) "" [] rel b le_rfl hwff.2 hwff.1
      (chain_obj_fieldsOf hc) hu
    rw [show fqKey "" rel = rel from by simp [fqKey]] at hres
    exact hres
  · intro q b hq hl
    simp only [buildHub] at hl
    rw [alookup_aset_ne _ _ _ _ (fun e => hq e.symm)] at hl
    rw [mapBlocks_eq_go] at hl
    rcases mapBlocksGo_sound (sizeOf (fieldsOf (ensureTagged defs)))
      (fieldsOf (ensureTagged defs)) "" [] q b le_rfl hwff.2 hwff.1 hl with
      ⟨rel, hqr, hc, hu⟩ | habs
    · rw [show fqKey "" rel = rel from by simp [fqKey]] at hqr
      subst hqr
      exact ⟨chain_of_chain_fieldsOf hc, hu⟩
    · simp [alookup] at habs

/-- Witness for C8 on the concrete tree `c8Defs`, whose block `mid` owns
no direct unit: the root is recorded under `""`, the grandchild block
`mid.inner` (reached through the unitless `mid`) is recorded under its
dot-joined path mapped to its own definitions, and `mid` itself gets no
entry. -/
theorem flatteningPostcondition_witness :
    wfTree c8Defs = true
    ∧ alookup (buildHub c8Defs) "" = some (ensureTagged c8Defs)
    ∧ alookup (buildHub c8Defs) "mid.inner"
        = some (.obj [(.str "$", blockTag), (.str "w", .strv "y")])
    ∧ alookup (buildHub c8Defs) "mid" = none := by
  have hchain : Chain (ensureTagged c8Defs) "mid.inner"
      (.obj [(.str "$", blockTag), (.str "w", .strv "y")]) := by
    rw [show ("mid.inner" : String) = "mid" ++ "." ++ "inner" from rfl]
    exact Chain.there (by rfl) (by rfl) (Chain.here (by rfl) (by rfl))
  exact ⟨rfl, (flatteningPostcondition c8Defs rfl).1,
    (flatteningPostcondition c8Defs rfl).2.1 "mid.inner" _ hchain rfl, rfl⟩


end Wiremap
